import Mathlib

/-!
Verification development for the JFrog-Cloud-Installers Ansible collection,
specifically the declarative repository-reconciliation logic in
`plugins/action/artifactory_repository.py` and the CRUD helper library in
`plugins/module_utils/ArtifactoryApi.py`.

Configuration records are Python dictionaries (JSON objects).  We embed them as
insertion-ordered association lists over a small JSON-like value type, with
Python's dictionary semantics: lookup returns the binding of the first matching
key, assignment replaces a binding in place (or appends a new one), `update`
folds assignments over the other dictionary's entries, and equality is
extensional (order-independent comparison of lookups).  Python exceptions are
embedded as an explicit error type threaded through `Except`.
-/

namespace JFrog

/-- JSON-like scalar values stored in a configuration-record field. -/
inductive Value where
  | str (s : String)
  | bool (b : Bool)
  | int (n : Int)
  | null
deriving DecidableEq, Repr

/-- A Python dictionary holding one configuration record: an insertion-ordered
association list from field names to values. -/
abbrev Dict := List (String × Value)

/-- Python `d[k]`, returning `none` when the key is absent (Python would raise
`KeyError`; callers of this helper handle that case explicitly). -/
def dictGet (d : Dict) (k : String) : Option Value :=
  match d with
  | [] => none
  | (k', v) :: rest => if k' = k then some v else dictGet rest k

/-- Python `d[k] = v`: replace the binding in place when the key is present
(keeping its position), append a new binding otherwise. -/
def dictSet (d : Dict) (k : String) (v : Value) : Dict :=
  match d with
  | [] => [(k, v)]
  | (k', v') :: rest => if k' = k then (k', v) :: rest else (k', v') :: dictSet rest k v

/-- Python `d.update(e)`: assign every entry of `e` into `d`, in order. -/
def dictUpdate (d e : Dict) : Dict :=
  e.foldl (fun acc kv => dictSet acc kv.1 kv.2) d

/-- Python `d == e` on dictionaries: extensional equality of the key-to-value
mappings, independent of insertion order. -/
def dictEqv (d e : Dict) : Bool :=
  d.all (fun kv => decide (dictGet e kv.1 = dictGet d kv.1)) &&
  e.all (fun kv => decide (dictGet d kv.1 = dictGet e kv.1))

/-- A genuine Python dictionary never holds two bindings for the same key; the
association-list embedding makes that a well-formedness side condition. -/
def WfKeys (d : Dict) : Prop := (d.map Prod.fst).Nodup

instance : DecidablePred WfKeys := fun d => by unfold WfKeys; infer_instance

/-- Python `str(v)` for the embedded scalar values. -/
def pyStr : Value → String
  | .str s => s
  | .bool true => "True"
  | .bool false => "False"
  | .int n => toString n
  | .null => "None"

/-- Python `s.lower()` (ASCII case folding suffices for the embedded keys). -/
def strLower (s : String) : String := String.mk (s.data.map Char.toLower)

/-- Embedded Python exceptions raised by the plugin code. -/
inductive PyErr where
  /-- Python `KeyError` from subscripting a missing field. -/
  | keyError (k : String)
  /-- Python `TypeError`, e.g. concatenating a string with a non-string. -/
  | typeError
  /-- Python `ValueError`, e.g. `list.remove(x)` with `x` not in the list. -/
  | valueError
  /-- Python `AttributeError`, e.g. `.lower()` on a non-string. -/
  | attributeError
  /-- `AnsibleOptionsError`: argument-validation failure. -/
  | optionsError (msg : String)
  /-- `AnsibleActionFail`: a remote API call reported failure. -/
  | actionFail (msg : String)
deriving DecidableEq, Repr

deriving instance DecidableEq for Except

/-- Python `lst.remove(x)` on a list of record dictionaries: drop the first
element comparing equal to `x`, raise `ValueError` when there is none. -/
def listRemove (l : List Dict) (x : Dict) : Except PyErr (List Dict) :=
  match l with
  | [] => .error .valueError
  | d :: rest =>
    if dictEqv d x then .ok rest
    else
      match listRemove rest x with
      | .error e => .error e
      | .ok r => .ok (d :: r)

instance : DecidableEq (List Dict × List Dict × List Dict) := instDecidableEqProd

instance : DecidableEq (List Dict × List Dict × List Dict × List Dict) := instDecidableEqProd

instance : DecidableEq (Dict × List Dict × List Dict × List Dict) := instDecidableEqProd

/-- The normalized identity key used for case-insensitive matching:
`str(d['key']).lower()` (total form, for specification lemmas). -/
def normKey (d : Dict) : String := strLower (pyStr ((dictGet d "key").getD .null))

/-!
The partition of `artifactory_repository.py`, `ActionModule.run` lines 186-197:

    inBoth = list()
    onlyInArtifactory = jsonGetResult.copy()
    onlyInArgs = args['repository_configs'].copy()
    for repo in args['repository_configs']:
        for item in jsonGetResult:
            if str(item['key']).lower() == str(repo['key']).lower():
                onlyInArgs.remove(repo)
                # Force keys to match capitalization
                repo['key'] = item['key']
                inBoth.append(repo)
                onlyInArtifactory.remove(repo)

The in-place mutation `repo['key'] = item['key']` is embedded by threading the
current value of `repo` through the loop and returning the final desired list
(`dAcc` below) alongside the three groups, so that the caller-visible mutation
of the desired records is observable.  `list.remove` compares dictionaries by
(extensional) equality and raises `ValueError` when no element matches, exactly
as in Python.
-/

/-- Inner loop of the partition: one desired record `repo` scanned against every
item of the Artifactory listing `A`, threading `onlyInArgs`, `inBoth`,
`onlyInArtifactory` and the mutated `repo`. -/
def sortInner (A : List Dict) (repo : Dict) (oArgs both oArt : List Dict) :
    Except PyErr (Dict × List Dict × List Dict × List Dict) :=
  match A with
  | [] => .ok (repo, oArgs, both, oArt)
  | item :: rest =>
    match dictGet item "key" with
    | none => .error (.keyError "key")
    | some iv =>
      match dictGet repo "key" with
      | none => .error (.keyError "key")
      | some rv =>
        if strLower (pyStr iv) = strLower (pyStr rv) then
          match listRemove oArgs repo with
          | .error e => .error e
          | .ok oArgs' =>
            let repo' := dictSet repo "key" iv
            match listRemove oArt repo' with
            | .error e => .error e
            | .ok oArt' => sortInner rest repo' oArgs' (both ++ [repo']) oArt'
        else sortInner rest repo oArgs both oArt

/-- Outer loop of the partition over the desired records, accumulating the
(possibly key-mutated) desired list `dAcc`. -/
def sortLoop (D A dAcc oArgs both oArt : List Dict) :
    Except PyErr (List Dict × List Dict × List Dict × List Dict) :=
  match D with
  | [] => .ok (dAcc, oArgs, both, oArt)
  | repo :: rest =>
    match sortInner A repo oArgs both oArt with
    | .error e => .error e
    | .ok (repo', oArgs', both', oArt') =>
      sortLoop rest A (dAcc ++ [repo']) oArgs' both' oArt'

/-- The partition computed by `ActionModule.run` (lines 186-197).  Returns the
final desired list (reflecting the in-place key mutations), `onlyInArgs`,
`inBoth` and `onlyInArtifactory`. -/
def sortRepos (desired actual : List Dict) :
    Except PyErr (List Dict × List Dict × List Dict × List Dict) :=
  sortLoop desired actual [] desired [] actual

/-!
Argument validation, `ActionModule.run` lines 112-136.  The transport- and
authentication-related checks (`artifactory_base_url`, `auth_type`,
`auth_string`, `ignore_ca_error`, lines 132-144) configure the excluded
HTTP/auth layer and do not influence the reconciliation logic, so the run model
omits them; the required-field checks, the case-insensitive duplicate-key check
and the target-state check are embedded in source order.
-/

/-- Required-field validation for one record (lines 121-126): subscripting a
missing field raises `KeyError`; a `None` value raises `AnsibleOptionsError`. -/
def checkRequired (repo : Dict) : Except PyErr Unit :=
  match dictGet repo "key" with
  | none => .error (.keyError "key")
  | some .null => .error (.optionsError "\"key\" is a required field in \"repository_configs\"")
  | some _ =>
    match dictGet repo "packageType" with
    | none => .error (.keyError "packageType")
    | some .null => .error (.optionsError "\"packageType\" is a required field in \"repository_configs\"")
    | some _ =>
      match dictGet repo "rclass" with
      | none => .error (.keyError "rclass")
      | some .null => .error (.optionsError "\"rclass\" is a required field in \"repository_configs\"")
      | some _ => .ok ()

/-- Required-field validation over the whole desired list (lines 118-126). -/
def checkRequiredAll : List Dict → Except PyErr Unit
  | [] => .ok ()
  | r :: rs =>
    match checkRequired r with
    | .error e => .error e
    | .ok _ => checkRequiredAll rs

/-- Python `repo['key'].lower()` as used by the duplicate check (line 130):
no `str(...)` coercion, so a non-string key raises `AttributeError`. -/
def keyLowerStrict (d : Dict) : Except PyErr String :=
  match dictGet d "key" with
  | none => .error (.keyError "key")
  | some (.str s) => .ok (strLower s)
  | some _ => .error .attributeError

/-- Message of the duplicate-key validation error (line 131). -/
def dupMsg : String := "Repository configurations must have unique \"key\" names"

/-- Inner loop of the duplicate-key check: `repo` against every later record. -/
def dupCheckOne (repo : Dict) : List Dict → Except PyErr Unit
  | [] => .ok ()
  | r :: rs =>
    match keyLowerStrict repo with
    | .error e => .error e
    | .ok k1 =>
      match keyLowerStrict r with
      | .error e => .error e
      | .ok k2 =>
        if k1 = k2 then .error (.optionsError dupMsg) else dupCheckOne repo rs

/-- Case-insensitive duplicate-key validation (lines 127-131): every ordered
pair of records is compared by lower-cased `key`. -/
def dupCheck : List Dict → Except PyErr Unit
  | [] => .ok ()
  | r :: rs =>
    match dupCheckOne r rs with
    | .error e => .error e
    | .ok _ => dupCheck rs

/-- Target-state validation (lines 134-136): `str(state).lower()` must be one
of `absent`, `present`, `prune`. -/
def checkState (state : String) : Except PyErr String :=
  let s := strLower state
  if s = "absent" || s = "present" || s = "prune" then .ok s
  else .error (.optionsError "\"State\" must be \"Absent\", \"Present\", or \"Prune\"")

/-- Validation phase of `ActionModule.run`, in source order: required fields,
duplicate keys, then the target state. -/
def validateArgs (configs : List Dict) (state : String) : Except PyErr String :=
  match checkRequiredAll configs with
  | .error e => .error e
  | .ok _ =>
    match dupCheck configs with
    | .error e => .error e
    | .ok _ => checkState state

/-!
The remote side.  The Artifactory server itself is not part of this repository;
its behaviour is modelled from the spec's `RemoteResourceAdapter` contract
(section 4.1): `listActual` returns every stored record, `readOne` fetches the
record with the given identity key, `create` stores the given record, `update`
replaces the stored record's full payload, `delete` removes the record.  The
remote state is the list of stored record dictionaries.  Remote *mutation*
failures (the server rejecting a PUT/POST/DELETE) are modelled by an oracle
`mutFail` consulted per call, mirroring the `result.get('failed', False)`
checks in the plugin; the two GET endpoints are modelled as succeeding exactly
when the requested data exists.
-/

/-- Modelled from the spec: the remote server's stored records (spec section
4.1, the state behind the `RemoteResourceAdapter`). -/
abbrev Remote := List Dict

/-- Modelled from the spec: `readOne` — the record whose identity key equals
the requested key (the GET of `api/repositories/<key>`). -/
def readOne (S : Remote) (k : String) : Option Dict :=
  match S with
  | [] => none
  | d :: rest => if dictGet d "key" = some (.str k) then some d else readOne rest k

/-- Modelled from the spec: `create` stores the record (the PUT call). -/
def remoteCreate (S : Remote) (d : Dict) : Remote := S ++ [d]

/-- Modelled from the spec: `update` replaces the full payload of the record
with the given identity key by the request body (the POST call). -/
def remoteUpdate (S : Remote) (k : String) (body : Dict) : Remote :=
  S.map (fun e => if dictGet e "key" = some (.str k) then body else e)

/-- Modelled from the spec: `delete` removes the record with the given
identity key (the DELETE call). -/
def remoteDelete (S : Remote) (k : String) : Remote :=
  S.filter (fun e => !(dictGet e "key" == some (.str k)))

/-- One remote API call issued by the action plugin. -/
inductive Call where
  /-- `GET api/repositories` — list all repositories. -/
  | listAll
  /-- `GET api/repositories/<key>` — read one repository's full payload. -/
  | getOne (k : String)
  /-- `PUT api/repositories/<key>` — create a repository. -/
  | put (k : String) (body : Dict)
  /-- `POST api/repositories/<key>` — update a repository. -/
  | post (k : String) (body : Dict)
  /-- `DELETE api/repositories/<key>`. -/
  | delete (k : String)
deriving DecidableEq, Repr

/-- Whether a call mutates remote state (create/update/delete). -/
def Call.isMut : Call → Bool
  | .put _ _ => true
  | .post _ _ => true
  | .delete _ => true
  | _ => false

/-- Whether a call is a read-one GET of a single record's payload. -/
def Call.isGetOne : Call → Bool
  | .getOne _ => true
  | _ => false

/-- Building `... + 'api/repositories/' + repo['key']`: string concatenation
with a non-string key raises `TypeError`; a missing key raises `KeyError`. -/
def urlKey (d : Dict) : Except PyErr String :=
  match dictGet d "key" with
  | none => .error (.keyError "key")
  | some (.str s) => .ok s
  | some _ => .error .typeError

/-- The create phase loop (lines 208-221), reached only in non-check mode: for
each `onlyInArgs` record, build the URL, issue the PUT and raise
`AnsibleActionFail` when the server reports failure. -/
def createLoop (mutFail : Call → Bool) : List Dict → Remote → List Call × Except PyErr Remote
  | [], S => ([], .ok S)
  | repo :: rest, S =>
    match urlKey repo with
    | .error e => ([], .error e)
    | .ok k =>
      let c : Call := .put k repo
      if mutFail c then
        ([c], .error (.actionFail ("Adding repository " ++ k ++ " to artifactory failed")))
      else
        let (tr, r) := createLoop mutFail rest (remoteCreate S repo)
        (c :: tr, r)

/-- The update phase loop (lines 224-259): for each `inBoth` record fetch the
current payload (in every mode), merge the desired record over a copy of it,
and when the merge differs count an update and (in non-check mode only) issue
the POST, whose body is the desired record. -/
def updateLoop (check : Bool) (mutFail : Call → Bool) :
    List Dict → Remote → List Call × Except PyErr (Remote × Nat)
  | [], S => ([], .ok (S, 0))
  | repo :: rest, S =>
    match urlKey repo with
    | .error e => ([], .error e)
    | .ok k =>
      match readOne S k with
      | none =>
        ([Call.getOne k],
         .error (.actionFail ("Querying repository config for " ++ k ++ " in artifactory failed")))
      | some current =>
        let future := dictUpdate current repo
        if dictEqv future current then
          let (tr, r) := updateLoop check mutFail rest S
          (Call.getOne k :: tr, r)
        else
          if check then
            let (tr, r) := updateLoop check mutFail rest S
            (Call.getOne k :: tr, r.map (fun sr => (sr.1, sr.2 + 1)))
          else
            let c : Call := .post k repo
            if mutFail c then
              ([Call.getOne k, c],
               .error (.actionFail ("Updating repository config for " ++ k ++ " in artifactory failed")))
            else
              let (tr, r) := updateLoop check mutFail rest (remoteUpdate S k repo)
              (Call.getOne k :: c :: tr, r.map (fun sr => (sr.1, sr.2 + 1)))

/-- The delete phase loop (lines 268-281): the loop body runs in every mode
(the `deletedRepos` assignment sits inside it) but the URL construction and the
DELETE call are guarded by the check-mode test. -/
def deleteLoop (check : Bool) (mutFail : Call → Bool) :
    List Dict → Remote → List Call × Except PyErr Remote
  | [], S => ([], .ok S)
  | repo :: rest, S =>
    if check then deleteLoop check mutFail rest S
    else
      match urlKey repo with
      | .error e => ([], .error e)
      | .ok k =>
        let c : Call := .delete k
        if mutFail c then
          ([c], .error (.actionFail ("Deleting repository " ++ k ++ " from artifactory failed")))
        else
          let (tr, r) := deleteLoop check mutFail rest (remoteDelete S k)
          (c :: tr, r)

/-- Result of a completed `ActionModule.run`: the desired list as left by the
run (reflecting the in-place key mutations), the remote state after the run,
the `changed` flag and the three counters behind the output message. -/
structure RunResult where
  desiredAfter : List Dict
  remote : Remote
  changed : Bool
  added : Nat
  updated : Nat
  deleted : Nat
deriving DecidableEq, Repr

/-- Phases of `ActionModule.run` after validation and partition (lines
199-293): the create, update and delete phases applied according to the
(lower-cased) target state, accumulating the counters and the trace of remote
calls. -/
def runPhases (st : String) (check : Bool) (mutFail : Call → Bool)
    (desired' onlyInArgs inBoth onlyInArt : List Dict) (S : Remote) :
    List Call × Except PyErr RunResult :=
  -- Create phase (lines 204-221)
  let addedRepos := if (st = "present" || st = "prune") && !onlyInArgs.isEmpty
    then onlyInArgs.length else 0
  let (tr1, r1) :=
    if (st = "present" || st = "prune") && !onlyInArgs.isEmpty && !check
    then createLoop mutFail onlyInArgs S
    else ([], .ok S)
  match r1 with
  | .error e => (Call.listAll :: tr1, .error e)
  | .ok S1 =>
    -- Update phase (lines 224-259)
    let (tr2, r2) :=
      if (st = "present" || st = "prune") && !inBoth.isEmpty
      then updateLoop check mutFail inBoth S1
      else ([], .ok (S1, 0))
    match r2 with
    | .error e => (Call.listAll :: tr1 ++ tr2, .error e)
    | .ok (S2, updatedRepos) =>
      -- Delete phase (lines 263-281)
      let toRemove :=
        if st = "absent" && !inBoth.isEmpty then inBoth
        else if st = "prune" && !onlyInArt.isEmpty then onlyInArt
        else []
      let deletedRepos := if toRemove.isEmpty then 0 else toRemove.length
      let (tr3, r3) := deleteLoop check mutFail toRemove S2
      match r3 with
      | .error e => (Call.listAll :: tr1 ++ tr2 ++ tr3, .error e)
      | .ok S3 =>
        (Call.listAll :: tr1 ++ tr2 ++ tr3,
         .ok { desiredAfter := desired', remote := S3,
               changed := !(addedRepos + updatedRepos + deletedRepos = 0),
               added := addedRepos, updated := updatedRepos,
               deleted := deletedRepos })

/-- The reconciliation run of `ActionModule.run` (lines 88-293): validate the
arguments, fetch the repository listing, partition, then apply the phases.
`check` is Ansible's check (dry-run) mode. -/
def runRepo (state : String) (check : Bool) (mutFail : Call → Bool)
    (desired : List Dict) (S : Remote) : List Call × Except PyErr RunResult :=
  match validateArgs desired state with
  | .error e => ([], .error e)
  | .ok st =>
    -- GET api/repositories (lines 166-179); the listing is the stored records.
    match sortRepos desired S with
    | .error e => ([Call.listAll], .error e)
    | .ok (desired', onlyInArgs, inBoth, onlyInArt) =>
      runPhases st check mutFail desired' onlyInArgs inBoth onlyInArt S

/-!
TLS certificate validation.  Two code paths configure it:

`ArtifactoryApi.__init__` / `_sendRequest` (module_utils/ArtifactoryApi.py,
lines 29, 49 and 187-194):

    def __init__(self, ..., ignore_ca_error = False, ...):
        ...
        self.ignore_ca_error = ignore_ca_error
    def _sendRequest(self, urltail, method, content = None):
        ...
        request = Request(headers=self.headers, validate_certs=self.ignore_ca_error)

`ActionModule.run` (action/artifactory_repository.py, lines 158-163), where the
Ansible `uri` module's `validate_certs` defaults to yes and is set to `'no'`
only when `ignore_ca_error` is true.
-/

/-- Default of the `ignore_ca_error` parameter (`ArtifactoryApi.__init__`
line 29 and `_PARAM_DEFAULTS` line 78). -/
def ignoreCaDefault : Bool := false

/-- The `validate_certs` value handed to the transport by
`ArtifactoryApi._sendRequest` (line 192): the ignore-CA flag is passed through
as-is, with no negation. -/
def sendRequestValidateCerts (ignore_ca_error : Bool) : Bool := ignore_ca_error

/-- The effective `validate_certs` value of the `uri` calls issued by
`ActionModule.run` (lines 158-163): `'no'` exactly when `ignore_ca_error` is
set, otherwise the `uri` module's default of yes. -/
def uriValidateCerts (ignore_ca_error : Bool) : Bool :=
  if ignore_ca_error then false else true

/-- The all-calls-succeed mutation oracle: the remote accepts every
create/update/delete request. -/
def noFail : Call → Bool := fun _ => false

/-- The caller-visible outcome of a run: the `changed` flag and the three
counters (or the raised error), ignoring the trace and the remote state. -/
def countsView (x : List Call × Except PyErr RunResult) :
    Except PyErr (Bool × Nat × Nat × Nat) :=
  x.2.map (fun r => (r.changed, r.added, r.updated, r.deleted))


/-- `runPhases` with the three state-dependent decisions precomputed as
parameters: the create-phase guard `g1`, the added counter `A`, the update
guard `g2` and the delete batch `T`.  Definitionally equal to `runPhases` at
the expressions those decisions have there. -/
def phasedRun (check : Bool) (mutFail : Call → Bool) (g1 : Bool) (A : Nat) (g2 : Bool)
    (T : List Dict) (desired' onlyInArgs inBoth : List Dict) (S : Remote) :
    List Call × Except PyErr RunResult :=
  let (tr1, r1) := if g1 then createLoop mutFail onlyInArgs S else ([], .ok S)
  match r1 with
  | .error e => (Call.listAll :: tr1, .error e)
  | .ok S1 =>
    let (tr2, r2) :=
      if g2 then updateLoop check mutFail inBoth S1 else ([], .ok (S1, 0))
    match r2 with
    | .error e => (Call.listAll :: tr1 ++ tr2, .error e)
    | .ok (S2, updatedRepos) =>
      let deletedRepos := if T.isEmpty then 0 else T.length
      let (tr3, r3) := deleteLoop check mutFail T S2
      match r3 with
      | .error e => (Call.listAll :: tr1 ++ tr2 ++ tr3, .error e)
      | .ok S3 =>
        (Call.listAll :: tr1 ++ tr2 ++ tr3,
         .ok { desiredAfter := desired', remote := S3,
               changed := !(A + updatedRepos + deletedRepos = 0),
               added := A, updated := updatedRepos, deleted := deletedRepos })

/-! Basic lemmas about the dictionary embedding. -/

theorem dictGet_mem {d : Dict} {k : String} {v : Value} (h : dictGet d k = some v) :
    (k, v) ∈ d := by
  induction d with
  | nil => simp [dictGet] at h
  | cons kv rest ih =>
    obtain ⟨k', v'⟩ := kv
    by_cases hk : k' = k
    · subst hk
      simp [dictGet] at h
      subst h
      exact List.mem_cons_self _ _
    · simp [dictGet, hk] at h
      exact List.mem_cons_of_mem _ (ih h)

theorem dictEqv_iff {d e : Dict} :
    dictEqv d e = true ↔ ∀ k, dictGet d k = dictGet e k := by
  constructor
  · intro h k
    unfold dictEqv at h
    rw [Bool.and_eq_true, List.all_eq_true, List.all_eq_true] at h
    obtain ⟨h1, h2⟩ := h
    cases hd : dictGet d k with
    | some v =>
      have := h1 _ (dictGet_mem hd)
      simp only [decide_eq_true_eq] at this
      rw [← hd]
      exact this.symm
    | none =>
      cases he : dictGet e k with
      | some w =>
        have := h2 _ (dictGet_mem he)
        simp only [decide_eq_true_eq] at this
        rw [hd] at this
        rw [← he]
        exact this
      | none => rfl
  · intro h
    unfold dictEqv
    rw [Bool.and_eq_true, List.all_eq_true, List.all_eq_true]
    constructor
    · intro kv _
      simp only [decide_eq_true_eq]
      exact (h kv.1).symm
    · intro kv _
      simp only [decide_eq_true_eq]
      exact h kv.1

theorem dictEqv_refl (d : Dict) : dictEqv d d = true :=
  dictEqv_iff.mpr (fun _ => rfl)

theorem normKey_of_eqv {d e : Dict} (h : dictEqv d e = true) : normKey d = normKey e := by
  unfold normKey
  rw [dictEqv_iff.mp h "key"]

theorem dictGet_dictSet_self (d : Dict) (k : String) (v : Value) :
    dictGet (dictSet d k v) k = some v := by
  induction d with
  | nil => simp [dictSet, dictGet]
  | cons kv rest ih =>
    obtain ⟨k', v'⟩ := kv
    by_cases hk : k' = k
    · subst hk
      simp [dictSet, dictGet]
    · simp [dictSet, dictGet, hk, ih]

theorem dictGet_dictSet_ne (d : Dict) {k k' : String} (v : Value) (h : k' ≠ k) :
    dictGet (dictSet d k v) k' = dictGet d k' := by
  have hne : ¬(k = k') := fun hh => h hh.symm
  induction d with
  | nil => simp [dictSet, dictGet, hne]
  | cons kv rest ih =>
    obtain ⟨k0, v0⟩ := kv
    by_cases hk : k0 = k
    · subst hk
      simp [dictSet, dictGet, hne]
    · simp only [dictSet, if_neg hk, dictGet]
      rw [ih]

theorem dictSet_eq_of_get {d : Dict} {k : String} {v : Value} (h : dictGet d k = some v) :
    dictSet d k v = d := by
  induction d with
  | nil => simp [dictGet] at h
  | cons kv rest ih =>
    obtain ⟨k', v'⟩ := kv
    by_cases hk : k' = k
    · subst hk
      simp [dictGet] at h
      simp [dictSet, h]
    · simp [dictGet, hk] at h
      simp [dictSet, hk, ih h]

theorem map_fst_dictSet (d : Dict) (k : String) (v : Value) :
    (dictSet d k v).map Prod.fst =
      if k ∈ d.map Prod.fst then d.map Prod.fst else d.map Prod.fst ++ [k] := by
  induction d with
  | nil => simp [dictSet]
  | cons kv rest ih =>
    obtain ⟨k0, v0⟩ := kv
    by_cases hk : k0 = k
    · subst hk
      simp [dictSet]
    · have hne : ¬(k = k0) := fun hh => hk hh.symm
      simp only [dictSet, if_neg hk, List.map_cons, ih]
      by_cases hmem : k ∈ rest.map Prod.fst
      · simp [hmem, List.mem_cons, hne]
      · simp [hmem, List.mem_cons, hne]

theorem wfKeys_dictSet {d : Dict} (k : String) (v : Value) (h : WfKeys d) :
    WfKeys (dictSet d k v) := by
  unfold WfKeys at h ⊢
  rw [map_fst_dictSet]
  by_cases hmem : k ∈ d.map Prod.fst
  · simpa [hmem] using h
  · simp only [if_neg hmem]
    refine List.Nodup.append h (List.nodup_singleton k) ?_
    intro a ha hb
    simp only [List.mem_singleton] at hb
    subst hb
    exact hmem ha

/-- Merging a sub-dictionary into a dictionary that already contains all of its
bindings changes nothing (up to lookup).  `he` is the Python guarantee that a
dictionary has no duplicate keys. -/
theorem dictUpdate_of_sub {e : Dict} (he : WfKeys e) :
    ∀ d : Dict, (∀ k v, dictGet e k = some v → dictGet d k = some v) →
      ∀ k, dictGet (dictUpdate d e) k = dictGet d k := by
  induction e with
  | nil => intro d _ k; simp [dictUpdate]
  | cons kv rest ih =>
    obtain ⟨k0, v0⟩ := kv
    intro d hsub k
    unfold WfKeys at he
    simp only [List.map_cons, List.nodup_cons] at he
    have hget0 : dictGet ((k0, v0) :: rest) k0 = some v0 := by simp [dictGet]
    have hd0 : dictGet d k0 = some v0 := hsub _ _ hget0
    have hstep : dictUpdate d ((k0, v0) :: rest) = dictUpdate (dictSet d k0 v0) rest := by
      simp [dictUpdate, List.foldl_cons]
    rw [hstep, dictSet_eq_of_get hd0]
    refine ih he.2 d ?_ k
    intro k' v' hk'
    have hne : k' ≠ k0 := by
      intro hkk
      subst hkk
      exact he.1 (List.mem_map.mpr ⟨(k', v'), dictGet_mem hk', rfl⟩)
    have hne0 : ¬(k0 = k') := fun hh => hne hh.symm
    have : dictGet ((k0, v0) :: rest) k' = some v' := by
      simp [dictGet, hne0, hk']
    exact hsub _ _ this

/-- The merge-then-compare update decision: when the desired record is deeply
equal to the current remote payload, merging it over a copy of that payload
reproduces the payload, so no update is needed. -/
theorem dictUpdate_skip {r c : Dict} (hr : WfKeys r) (h : dictEqv r c = true) :
    dictEqv (dictUpdate c r) c = true := by
  rw [dictEqv_iff]
  intro k
  refine dictUpdate_of_sub hr c ?_ k
  intro k' v' hk'
  rw [← dictEqv_iff.mp h k']
  exact hk'

/-! Lemmas about Python `list.remove` on record lists. -/

theorem listRemove_ok {l l' : List Dict} {x : Dict} (h : listRemove l x = .ok l') :
    ∃ l1 e l2, l = l1 ++ e :: l2 ∧ l' = l1 ++ l2 ∧ dictEqv e x = true ∧
      ∀ e1 ∈ l1, dictEqv e1 x = false := by
  induction l generalizing l' with
  | nil => simp [listRemove] at h
  | cons d rest ih =>
    by_cases hd : dictEqv d x = true
    · refine ⟨[], d, rest, by simp, ?_, hd, by simp⟩
      simp [listRemove, hd] at h
      simp [h.symm]
    · have hd' : dictEqv d x = false := by
        cases hv : dictEqv d x
        · rfl
        · exact absurd hv hd
      simp only [listRemove, hd', Bool.false_eq_true, if_false] at h
      cases hr : listRemove rest x with
      | error e => rw [hr] at h; exact absurd h (by simp)
      | ok r =>
        rw [hr] at h
        simp only [Except.ok.injEq] at h
        obtain ⟨l1, e, l2, h1, h2, h3, h4⟩ := ih hr
        refine ⟨d :: l1, e, l2, by simp [h1], by simp [← h, h2], h3, ?_⟩
        intro e1 he1
        rcases List.mem_cons.mp he1 with he1 | he1
        · subst he1; exact hd'
        · exact h4 e1 he1

theorem listRemove_eval {l1 l2 : List Dict} {e x : Dict}
    (h1 : ∀ e1 ∈ l1, dictEqv e1 x = false) (h2 : dictEqv e x = true) :
    listRemove (l1 ++ e :: l2) x = .ok (l1 ++ l2) := by
  induction l1 with
  | nil => simp [listRemove, h2]
  | cons d rest ih =>
    have hd := h1 d (by simp)
    simp only [List.cons_append, listRemove, hd, Bool.false_eq_true, if_false, List.append_eq]
    rw [ih (fun e1 he1 => h1 e1 (by simp [he1]))]

theorem listRemove_err {l : List Dict} {x : Dict} (h : ∀ e ∈ l, dictEqv e x = false) :
    listRemove l x = .error .valueError := by
  induction l with
  | nil => rfl
  | cons d rest ih =>
    have hd := h d (by simp)
    simp only [listRemove, hd, Bool.false_eq_true, if_false]
    rw [ih (fun e1 he1 => h e1 (by simp [he1]))]

theorem listRemove_ok_of_mem {l : List Dict} {x e : Dict} (he : e ∈ l)
    (hx : dictEqv e x = true) : ∃ l', listRemove l x = .ok l' := by
  induction l with
  | nil => simp at he
  | cons d rest ih =>
    by_cases hd : dictEqv d x = true
    · exact ⟨rest, by simp [listRemove, hd]⟩
    · have hd' : dictEqv d x = false := by
        cases hv : dictEqv d x
        · rfl
        · exact absurd hv hd
      rcases List.mem_cons.mp he with he | he
      · subst he; exact absurd hx hd
      · obtain ⟨l', hl'⟩ := ih he
        exact ⟨d :: l', by simp [listRemove, hd', hl']⟩

theorem listRemove_subset {l l' : List Dict} {x : Dict} (h : listRemove l x = .ok l') :
    ∀ e ∈ l', e ∈ l := by
  obtain ⟨l1, e0, l2, h1, h2, _, _⟩ := listRemove_ok h
  subst h1 h2
  intro e he
  rcases List.mem_append.mp he with he | he
  · exact List.mem_append.mpr (Or.inl he)
  · exact List.mem_append.mpr (Or.inr (List.mem_cons_of_mem _ he))

theorem listRemove_mem_preserved {l l' : List Dict} {x e : Dict}
    (h : listRemove l x = .ok l') (he : e ∈ l) (hne : dictEqv e x = false) : e ∈ l' := by
  obtain ⟨l1, e0, l2, h1, h2, h3, _⟩ := listRemove_ok h
  subst h1 h2
  rcases List.mem_append.mp he with h4 | h4
  · exact List.mem_append.mpr (Or.inl h4)
  · rcases List.mem_cons.mp h4 with h4 | h4
    · subst h4; rw [h3] at hne; exact absurd hne (by simp)
    · exact List.mem_append.mpr (Or.inr h4)

theorem listRemove_countP {l l' : List Dict} {x : Dict} (h : listRemove l x = .ok l')
    (p : Dict → Bool) (hp : ∀ e, dictEqv e x = true → p e = true) :
    l'.countP p + 1 = l.countP p := by
  obtain ⟨l1, e0, l2, h1, h2, h3, _⟩ := listRemove_ok h
  subst h1 h2
  rw [List.countP_append, List.countP_append, List.countP_cons, hp e0 h3]
  simp
  omega

theorem listRemove_removed_mem {l l' : List Dict} {x : Dict} (h : listRemove l x = .ok l') :
    ∃ e ∈ l, dictEqv e x = true := by
  obtain ⟨l1, e0, l2, h1, _, h3, _⟩ := listRemove_ok h
  subst h1
  exact ⟨e0, List.mem_append.mpr (Or.inr (List.mem_cons_self _ _)), h3⟩

/-! Lemmas about the modelled remote reads. -/

theorem readOne_isSome_of_mem {S : Remote} {e : Dict} {k : String} (he : e ∈ S)
    (hk : dictGet e "key" = some (.str k)) : (readOne S k).isSome = true := by
  induction S with
  | nil => simp at he
  | cons d rest ih =>
    by_cases hd : dictGet d "key" = some (Value.str k)
    · simp [readOne, hd]
    · rcases List.mem_cons.mp he with he | he
      · subst he; exact absurd hk hd
      · simp [readOne, hd, ih he]

theorem readOne_append_left {S T : Remote} {k : String} {c : Dict}
    (h : readOne S k = some c) : readOne (S ++ T) k = some c := by
  induction S with
  | nil => simp [readOne] at h
  | cons d rest ih =>
    by_cases hd : dictGet d "key" = some (Value.str k)
    · simp [readOne, hd] at h
      subst h
      simp [readOne, hd]
    · simp only [readOne, if_neg hd] at h
      simp only [List.cons_append, readOne, if_neg hd]
      exact ih h

theorem readOne_mem {S : Remote} {k : String} {c : Dict} (h : readOne S k = some c) :
    c ∈ S ∧ dictGet c "key" = some (.str k) := by
  induction S with
  | nil => simp [readOne] at h
  | cons d rest ih =>
    by_cases hd : dictGet d "key" = some (Value.str k)
    · simp [readOne, hd] at h
      subst h
      exact ⟨List.mem_cons_self _ _, hd⟩
    · simp only [readOne, if_neg hd] at h
      exact ⟨List.mem_cons_of_mem _ (ih h).1, (ih h).2⟩

/-- On a remote whose normalized keys are pairwise distinct, `readOne` finds
exactly the member that carries the requested key. -/
theorem readOne_unique {S : Remote} {e : Dict} {k : String}
    (hnodup : (S.map normKey).Nodup) (he : e ∈ S)
    (hk : dictGet e "key" = some (.str k)) : readOne S k = some e := by
  induction S with
  | nil => simp at he
  | cons d rest ih =>
    simp only [List.map_cons, List.nodup_cons] at hnodup
    rcases List.mem_cons.mp he with he | he
    · subst he
      simp [readOne, hk]
    · by_cases hd : dictGet d "key" = some (Value.str k)
      · exfalso
        apply hnodup.1
        have h1 : normKey d = strLower k := by unfold normKey; rw [hd]; rfl
        have h2 : normKey e = strLower k := by unfold normKey; rw [hk]; rfl
        rw [show normKey d = normKey e by rw [h1, h2]]
        exact List.mem_map.mpr ⟨e, he, rfl⟩
      · simp only [readOne, if_neg hd]
        exact ih hnodup.2 he

theorem readOne_remoteUpdate_ne {S : Remote} {k k' : String} {b : Dict}
    (hb : dictGet b "key" = some (.str k)) (hne : k' ≠ k) :
    readOne (remoteUpdate S k b) k' = readOne S k' := by
  have hb' : ¬dictGet b "key" = some (Value.str k') := by
    rw [hb]
    intro hh
    apply hne
    injection hh with h1
    injection h1 with h2
    exact h2.symm
  induction S with
  | nil => rfl
  | cons d rest ih =>
    have ih' : readOne (List.map
        (fun e => if dictGet e "key" = some (Value.str k) then b else e) rest) k'
        = readOne rest k' := ih
    show readOne ((if dictGet d "key" = some (Value.str k) then b else d) ::
      List.map (fun e => if dictGet e "key" = some (Value.str k) then b else e) rest) k'
      = readOne (d :: rest) k'
    by_cases hd : dictGet d "key" = some (Value.str k)
    · have hd' : ¬dictGet d "key" = some (Value.str k') := by
        rw [hd]
        intro hh
        apply hne
        injection hh with h1
        injection h1 with h2
        exact h2.symm
      rw [if_pos hd]
      simp only [readOne, if_neg hb', if_neg hd']
      exact ih'
    · rw [if_neg hd]
      by_cases hd2 : dictGet d "key" = some (Value.str k')
      · simp [readOne, hd2]
      · simp only [readOne, if_neg hd2]
        exact ih'

/-! Lemmas about the validation phase and key helpers. -/

theorem urlKey_ok_iff {d : Dict} {k : String} :
    urlKey d = .ok k ↔ dictGet d "key" = some (.str k) := by
  unfold urlKey
  cases h : dictGet d "key" with
  | none => simp
  | some v => cases v <;> simp

theorem normKey_of_urlKey {d : Dict} {k : String} (h : urlKey d = .ok k) :
    normKey d = strLower k := by
  rw [urlKey_ok_iff] at h
  unfold normKey
  rw [h]
  rfl

theorem checkRequired_key {r : Dict} {u : Unit} (h : checkRequired r = .ok u) :
    (dictGet r "key").isSome = true := by
  unfold checkRequired at h
  cases hk : dictGet r "key" with
  | none => rw [hk] at h; exact absurd h (by simp)
  | some v => simp

theorem checkRequiredAll_mem {D : List Dict} {u : Unit} (h : checkRequiredAll D = .ok u) :
    ∀ r ∈ D, ∃ u', checkRequired r = .ok u' := by
  induction D with
  | nil => simp
  | cons r0 rest ih =>
    intro r hr
    unfold checkRequiredAll at h
    cases hc : checkRequired r0 with
    | error e => rw [hc] at h; exact absurd h (by simp)
    | ok u0 =>
      rw [hc] at h
      rcases List.mem_cons.mp hr with hr | hr
      · subst hr; exact ⟨u0, hc⟩
      · exact ih h r hr

theorem keyLowerStrict_norm {d : Dict} {s : String} (h : keyLowerStrict d = .ok s) :
    normKey d = s := by
  unfold keyLowerStrict at h
  cases hk : dictGet d "key" with
  | none => rw [hk] at h; exact absurd h (by simp)
  | some v =>
    rw [hk] at h
    cases v with
    | str s' =>
      simp only [Except.ok.injEq] at h
      unfold normKey
      rw [hk]
      simpa [pyStr] using h
    | bool b => exact absurd h (by simp)
    | int n => exact absurd h (by simp)
    | null => exact absurd h (by simp)

theorem dupCheckOne_ne {r : Dict} {rs : List Dict} {u : Unit} (h : dupCheckOne r rs = .ok u) :
    ∀ e ∈ rs, normKey r ≠ normKey e := by
  induction rs with
  | nil => simp
  | cons e0 rest ih =>
    intro e he
    unfold dupCheckOne at h
    cases h1 : keyLowerStrict r with
    | error err => rw [h1] at h; exact absurd h (by simp)
    | ok k1 =>
      rw [h1] at h
      cases h2 : keyLowerStrict e0 with
      | error err => rw [h2] at h; exact absurd h (by simp)
      | ok k2 =>
        rw [h2] at h
        dsimp only at h
        by_cases hk : k1 = k2
        · rw [if_pos hk] at h; exact absurd h (by simp)
        · rw [if_neg hk] at h
          rcases List.mem_cons.mp he with he | he
          · subst he
            rw [keyLowerStrict_norm h1, keyLowerStrict_norm h2]
            exact hk
          · exact ih h e he

theorem dupCheck_nodup {D : List Dict} {u : Unit} (h : dupCheck D = .ok u) :
    (D.map normKey).Nodup := by
  induction D with
  | nil => simp
  | cons r rest ih =>
    unfold dupCheck at h
    cases h1 : dupCheckOne r rest with
    | error e => rw [h1] at h; exact absurd h (by simp)
    | ok u1 =>
      rw [h1] at h
      simp only [List.map_cons, List.nodup_cons]
      refine ⟨?_, ih h⟩
      intro hmem
      obtain ⟨e, he, heq⟩ := List.mem_map.mp hmem
      exact dupCheckOne_ne h1 e he heq.symm

theorem validateArgs_ok {D : List Dict} {st s : String} (h : validateArgs D st = .ok s) :
    (∃ u, checkRequiredAll D = .ok u) ∧ (∃ u, dupCheck D = .ok u) ∧ checkState st = .ok s := by
  unfold validateArgs at h
  cases h1 : checkRequiredAll D with
  | error e => rw [h1] at h; exact absurd h (by simp)
  | ok u1 =>
    rw [h1] at h
    cases h2 : dupCheck D with
    | error e => rw [h2] at h; exact absurd h (by simp)
    | ok u2 =>
      rw [h2] at h
      exact ⟨⟨u1, rfl⟩, ⟨u2, rfl⟩, h⟩

theorem checkState_ok {st s : String} (h : checkState st = .ok s) :
    s = strLower st ∧ (s = "absent" ∨ s = "present" ∨ s = "prune") := by
  unfold checkState at h
  by_cases hc : strLower st = "absent" || strLower st = "present" || strLower st = "prune"
  · rw [if_pos hc] at h
    simp only [Except.ok.injEq] at h
    subst h
    simp only [Bool.or_eq_true, decide_eq_true_eq] at hc
    exact ⟨rfl, by tauto⟩
  · rw [if_neg hc] at h
    exact absurd h (by simp)

/-! Helper lemmas relating normalized keys, `dictSet` and `listRemove`. -/

theorem normKey_get {d : Dict} {v : Value} (h : dictGet d "key" = some v) :
    normKey d = strLower (pyStr v) := by
  unfold normKey
  rw [h]
  rfl

theorem normKey_dictSet (d : Dict) (v : Value) :
    normKey (dictSet d "key" v) = strLower (pyStr v) :=
  normKey_get (dictGet_dictSet_self d "key" v)

theorem listRemove_length {l l' : List Dict} {x : Dict} (h : listRemove l x = .ok l') :
    l'.length + 1 = l.length := by
  obtain ⟨l1, e, l2, h1, h2, _, _⟩ := listRemove_ok h
  subst h1 h2
  simp [List.length_append]
  omega

theorem listRemove_sublist {l l' : List Dict} {x : Dict} (h : listRemove l x = .ok l') :
    l'.Sublist l := by
  obtain ⟨l1, e, l2, h1, h2, _, _⟩ := listRemove_ok h
  subst h1 h2
  exact List.Sublist.append (List.Sublist.refl l1) (List.sublist_cons_self _ _)

theorem countP_le_one_of_nodup {D : List Dict} {r : Dict} (h : (D.map normKey).Nodup) :
    D.countP (fun e => normKey e == normKey r) ≤ 1 := by
  have hc : D.countP (fun e => normKey e == normKey r)
      = (D.map normKey).countP (fun x => x == normKey r) := by
    rw [List.countP_map]
    rfl
  rw [hc]
  have := List.nodup_iff_count_le_one.mp h (normKey r)
  rw [List.count] at this
  exact this

theorem mem_unique_of_nodup_map {A : List Dict} {a b : Dict}
    (h : (A.map normKey).Nodup) (ha : a ∈ A) (hb : b ∈ A)
    (heq : normKey a = normKey b) : a = b :=
  List.inj_on_of_nodup_map h ha hb heq

/-! Characterization lemmas for the partition loops. -/

/-- When no listing item matches the desired record's normalized key, the inner
loop leaves everything untouched. -/
theorem sortInner_nomatch {A : List Dict} {repo : Dict} {oArgs both oArt : List Dict}
    (hr : (dictGet repo "key").isSome)
    (hA : ∀ it ∈ A, (dictGet it "key").isSome ∧ normKey it ≠ normKey repo) :
    sortInner A repo oArgs both oArt = .ok (repo, oArgs, both, oArt) := by
  induction A with
  | nil => rfl
  | cons it rest ih =>
    obtain ⟨hit, hne⟩ := hA it (by simp)
    obtain ⟨iv, hiv⟩ := Option.isSome_iff_exists.mp hit
    obtain ⟨rv, hrv⟩ := Option.isSome_iff_exists.mp hr
    have hcond : ¬(strLower (pyStr iv) = strLower (pyStr rv)) := by
      rw [← normKey_get hiv, ← normKey_get hrv]
      exact hne
    simp only [sortInner, hiv, hrv, if_neg hcond]
    exact ih (fun it' hit' => hA it' (by simp [hit']))

/-- When `onlyInArgs` holds no candidate with the record's normalized key, a
successful inner loop cannot have matched anything. -/
theorem sortInner_frozen {A : List Dict} {repo : Dict} {oArgs both oArt : List Dict}
    {out : Dict × List Dict × List Dict × List Dict}
    (hr : (dictGet repo "key").isSome)
    (hA : ∀ it ∈ A, (dictGet it "key").isSome)
    (hzero : ∀ e ∈ oArgs, normKey e ≠ normKey repo)
    (h : sortInner A repo oArgs both oArt = .ok out) :
    out = (repo, oArgs, both, oArt) := by
  induction A with
  | nil =>
    simp only [sortInner, Except.ok.injEq] at h
    exact h.symm
  | cons it rest ih =>
    obtain ⟨iv, hiv⟩ := Option.isSome_iff_exists.mp (hA it (by simp))
    obtain ⟨rv, hrv⟩ := Option.isSome_iff_exists.mp hr
    by_cases hcond : strLower (pyStr iv) = strLower (pyStr rv)
    · exfalso
      simp only [sortInner, hiv, hrv, if_pos hcond] at h
      cases hrem : listRemove oArgs repo with
      | error e => rw [hrem] at h; exact absurd h (by simp)
      | ok oArgs1 =>
        obtain ⟨e0, he0, heqv⟩ := listRemove_removed_mem hrem
        exact hzero e0 he0 (normKey_of_eqv heqv)
    · simp only [sortInner, hiv, hrv, if_neg hcond] at h
      exact ih (fun it' hit' => hA it' (by simp [hit'])) h

/-- Inversion of a successful inner loop, when `onlyInArgs` holds at most one
candidate with the record's normalized key: either nothing matched, or exactly
one listing item matched and both removals succeeded. -/
theorem sortInner_char {A : List Dict} {repo : Dict} {oArgs both oArt : List Dict}
    {repo' : Dict} {oArgsF bothF oArtF : List Dict}
    (hr : (dictGet repo "key").isSome)
    (hA : ∀ it ∈ A, (dictGet it "key").isSome)
    (hone : oArgs.countP (fun e => normKey e == normKey repo) ≤ 1)
    (h : sortInner A repo oArgs both oArt = .ok (repo', oArgsF, bothF, oArtF)) :
    (repo' = repo ∧ oArgsF = oArgs ∧ bothF = both ∧ oArtF = oArt ∧
      ∀ it ∈ A, normKey it ≠ normKey repo)
    ∨ (∃ it ∈ A, normKey it = normKey repo ∧
        repo' = dictSet repo "key" ((dictGet it "key").getD .null) ∧
        bothF = both ++ [repo'] ∧
        listRemove oArgs repo = .ok oArgsF ∧
        listRemove oArt repo' = .ok oArtF) := by
  induction A with
  | nil =>
    left
    simp only [sortInner, Except.ok.injEq, Prod.mk.injEq] at h
    obtain ⟨h1, h2, h3, h4⟩ := h
    exact ⟨h1.symm, h2.symm, h3.symm, h4.symm, by simp⟩
  | cons it rest ih =>
    obtain ⟨iv, hiv⟩ := Option.isSome_iff_exists.mp (hA it (by simp))
    obtain ⟨rv, hrv⟩ := Option.isSome_iff_exists.mp hr
    by_cases hcond : strLower (pyStr iv) = strLower (pyStr rv)
    · right
      simp only [sortInner, hiv, hrv, if_pos hcond] at h
      cases hrem : listRemove oArgs repo with
      | error e => rw [hrem] at h; exact absurd h (by simp)
      | ok oArgs1 =>
        rw [hrem] at h
        cases hrem2 : listRemove oArt (dictSet repo "key" iv) with
        | error e => rw [hrem2] at h; exact absurd h (by simp)
        | ok oArt1 =>
          rw [hrem2] at h
          have hnorm : normKey (dictSet repo "key" iv) = normKey repo := by
            rw [normKey_dictSet, normKey_get hrv]
            exact hcond
          have hzero : ∀ e ∈ oArgs1, normKey e ≠ normKey (dictSet repo "key" iv) := by
            intro e he
            rw [hnorm]
            have hcnt := listRemove_countP hrem (fun e => normKey e == normKey repo) ?_
            · have hzero' : oArgs1.countP (fun e => normKey e == normKey repo) = 0 := by omega
              have := List.countP_eq_zero.mp hzero' e he
              simpa using this
            · intro e1 he1
              simp [normKey_of_eqv he1]
          have hout := sortInner_frozen (by simp [dictGet_dictSet_self])
            (fun it' hit' => hA it' (by simp [hit'])) hzero h
          simp only [Prod.mk.injEq] at hout
          obtain ⟨h1, h2, h3, h4⟩ := hout
          refine ⟨it, by simp, ?_, ?_, ?_, ?_, ?_⟩
          · rw [normKey_get hiv, normKey_get hrv]
            exact hcond
          · rw [h1, hiv]
            rfl
          · rw [h3, h1]
          · rw [h2]
          · rw [h4, h1]
            exact hrem2
    · simp only [sortInner, hiv, hrv, if_neg hcond] at h
      rcases ih (fun it' hit' => hA it' (by simp [hit'])) h with hl | hr'
      · left
        obtain ⟨h1, h2, h3, h4, h5⟩ := hl
        refine ⟨h1, h2, h3, h4, ?_⟩
        intro it' hit'
        rcases List.mem_cons.mp hit' with hit' | hit'
        · subst hit'
          rw [normKey_get hiv, normKey_get hrv]
          exact hcond
        · exact h5 it' hit'
      · right
        obtain ⟨it', hit', rest'⟩ := hr'
        exact ⟨it', by simp [hit'], rest'⟩


theorem normKey_dictSet_getD (r it : Dict) :
    normKey (dictSet r "key" ((dictGet it "key").getD .null)) = normKey it := by
  rw [normKey_dictSet]
  rfl

/-- Forward evaluation of the inner loop when the listing's normalized keys are
pairwise distinct: the loop behaves as a first-match search followed by the two
removals. -/
theorem sortInner_eval {A : List Dict} {repo : Dict} (oArgs both oArt : List Dict)
    (hr : (dictGet repo "key").isSome)
    (hA : ∀ it ∈ A, (dictGet it "key").isSome)
    (hnodup : (A.map normKey).Nodup) :
    sortInner A repo oArgs both oArt =
      match A.find? (fun it => normKey it == normKey repo) with
      | none => .ok (repo, oArgs, both, oArt)
      | some item =>
        match listRemove oArgs repo with
        | .error e => .error e
        | .ok oArgs1 =>
          match listRemove oArt (dictSet repo "key" ((dictGet item "key").getD .null)) with
          | .error e => .error e
          | .ok oArt1 =>
            .ok (dictSet repo "key" ((dictGet item "key").getD .null), oArgs1,
              both ++ [dictSet repo "key" ((dictGet item "key").getD .null)], oArt1) := by
  induction A with
  | nil => rfl
  | cons it rest ih =>
    obtain ⟨iv, hiv⟩ := Option.isSome_iff_exists.mp (hA it (by simp))
    obtain ⟨rv, hrv⟩ := Option.isSome_iff_exists.mp hr
    simp only [List.map_cons, List.nodup_cons] at hnodup
    by_cases hcond : strLower (pyStr iv) = strLower (pyStr rv)
    · have hpred : (fun it => normKey it == normKey repo) it = true := by
        simp only [beq_iff_eq]
        rw [normKey_get hiv, normKey_get hrv]
        exact hcond
      have hfind := List.find?_cons_of_pos (p := fun d => normKey d == normKey repo)
        (a := it) rest hpred
      rw [hfind]
      simp only [sortInner, hiv, hrv, if_pos hcond, Option.getD_some]
      cases hrem : listRemove oArgs repo with
      | error e => rfl
      | ok oArgs1 =>
        cases hrem2 : listRemove oArt (dictSet repo "key" iv) with
        | error e => rfl
        | ok oArt1 =>
          refine sortInner_nomatch (by simp [dictGet_dictSet_self]) ?_
          intro it2 hit2
          refine ⟨hA it2 (by simp [hit2]), ?_⟩
          rw [normKey_dictSet, ← normKey_get hiv]
          intro hctr
          exact hnodup.1 (hctr ▸ List.mem_map.mpr ⟨it2, hit2, rfl⟩)
    · have hpred : ¬((fun it => normKey it == normKey repo) it = true) := by
        simp only [beq_iff_eq]
        rw [normKey_get hiv, normKey_get hrv]
        exact hcond
      have hfind := List.find?_cons_of_neg (p := fun d => normKey d == normKey repo)
        (a := it) rest hpred
      rw [hfind]
      simp only [sortInner, hiv, hrv, if_neg hcond]
      exact ih (fun it2 hit2 => hA it2 (by simp [hit2])) hnodup.2

/-- The inner loop only ever touches the `"key"` field of the desired record. -/
theorem sortInner_fields {A : List Dict} {repo repo' : Dict}
    {oArgs both oArt oArgsF bothF oArtF : List Dict}
    (h : sortInner A repo oArgs both oArt = .ok (repo', oArgsF, bothF, oArtF)) :
    ∀ k, k ≠ "key" → dictGet repo' k = dictGet repo k := by
  induction A generalizing repo oArgs both oArt with
  | nil =>
    simp only [sortInner, Except.ok.injEq, Prod.mk.injEq] at h
    rw [h.1]
    simp
  | cons it rest ih =>
    intro k hk
    unfold sortInner at h
    cases hiv : dictGet it "key" with
    | none => rw [hiv] at h; exact absurd h (by simp)
    | some iv =>
      rw [hiv] at h
      cases hrv : dictGet repo "key" with
      | none => rw [hrv] at h; exact absurd h (by simp)
      | some rv =>
        rw [hrv] at h
        dsimp only at h
        by_cases hcond : strLower (pyStr iv) = strLower (pyStr rv)
        · rw [if_pos hcond] at h
          cases hrem : listRemove oArgs repo with
          | error e => rw [hrem] at h; exact absurd h (by simp)
          | ok oArgs1 =>
            rw [hrem] at h
            cases hrem2 : listRemove oArt (dictSet repo "key" iv) with
            | error e => rw [hrem2] at h; exact absurd h (by simp)
            | ok oArt1 =>
              rw [hrem2] at h
              dsimp only at h
              rw [ih h k hk]
              exact dictGet_dictSet_ne repo iv hk
        · rw [if_neg hcond] at h
          exact ih h k hk

/-- Membership inversion for the `inBoth` group of the inner loop: every new
member's key value is the key value of some listing item, and it is witnessed
by a remaining `onlyInArtifactory` element equal to it. -/
theorem sortInner_both_mem {A : List Dict} {repo repo' : Dict}
    {oArgs both oArt oArgsF bothF oArtF : List Dict}
    (h : sortInner A repo oArgs both oArt = .ok (repo', oArgsF, bothF, oArtF)) :
    ∀ b ∈ bothF, b ∈ both ∨
      ((∃ it ∈ A, dictGet b "key" = dictGet it "key") ∧ ∃ e ∈ oArt, dictEqv e b = true) := by
  induction A generalizing repo oArgs both oArt with
  | nil =>
    simp only [sortInner, Except.ok.injEq, Prod.mk.injEq] at h
    intro b hb
    rw [← h.2.2.1] at hb
    exact Or.inl hb
  | cons it rest ih =>
    intro b hb
    unfold sortInner at h
    cases hiv : dictGet it "key" with
    | none => rw [hiv] at h; exact absurd h (by simp)
    | some iv =>
      rw [hiv] at h
      cases hrv : dictGet repo "key" with
      | none => rw [hrv] at h; exact absurd h (by simp)
      | some rv =>
        rw [hrv] at h
        dsimp only at h
        by_cases hcond : strLower (pyStr iv) = strLower (pyStr rv)
        · rw [if_pos hcond] at h
          cases hrem : listRemove oArgs repo with
          | error e => rw [hrem] at h; exact absurd h (by simp)
          | ok oArgs1 =>
            rw [hrem] at h
            cases hrem2 : listRemove oArt (dictSet repo "key" iv) with
            | error e => rw [hrem2] at h; exact absurd h (by simp)
            | ok oArt1 =>
              rw [hrem2] at h
              dsimp only at h
              rcases ih h b hb with hb1 | hb1
              · rcases List.mem_append.mp hb1 with hb2 | hb2
                · exact Or.inl hb2
                · right
                  simp only [List.mem_singleton] at hb2
                  subst hb2
                  obtain ⟨e0, he0, heqv0⟩ := listRemove_removed_mem hrem2
                  refine ⟨⟨it, by simp, ?_⟩, e0, he0, heqv0⟩
                  rw [dictGet_dictSet_self, hiv]
              · obtain ⟨⟨it2, hit2, hkey2⟩, e2, he2, heqv2⟩ := hb1
                have he2' : e2 ∈ oArt := listRemove_subset hrem2 e2 he2
                exact Or.inr ⟨⟨it2, by simp [hit2], hkey2⟩, e2, he2', heqv2⟩
        · rw [if_neg hcond] at h
          rcases ih h b hb with hb1 | hb1
          · exact Or.inl hb1
          · obtain ⟨⟨it2, hit2, hkey2⟩, e2, he2, heqv2⟩ := hb1
            exact Or.inr ⟨⟨it2, by simp [hit2], hkey2⟩, e2, he2, heqv2⟩


theorem sortInner_oArt_sub {A : List Dict} {repo repo' : Dict}
    {oArgs both oArt oArgsF bothF oArtF : List Dict}
    (h : sortInner A repo oArgs both oArt = .ok (repo', oArgsF, bothF, oArtF)) :
    ∀ e ∈ oArtF, e ∈ oArt := by
  induction A generalizing repo oArgs both oArt with
  | nil =>
    simp only [sortInner, Except.ok.injEq, Prod.mk.injEq] at h
    rw [← h.2.2.2]
    exact fun e he => he
  | cons it rest ih =>
    unfold sortInner at h
    cases hiv : dictGet it "key" with
    | none => rw [hiv] at h; exact absurd h (by simp)
    | some iv =>
      rw [hiv] at h
      cases hrv : dictGet repo "key" with
      | none => rw [hrv] at h; exact absurd h (by simp)
      | some rv =>
        rw [hrv] at h
        dsimp only at h
        by_cases hcond : strLower (pyStr iv) = strLower (pyStr rv)
        · rw [if_pos hcond] at h
          cases hrem : listRemove oArgs repo with
          | error e => rw [hrem] at h; exact absurd h (by simp)
          | ok oArgs1 =>
            rw [hrem] at h
            cases hrem2 : listRemove oArt (dictSet repo "key" iv) with
            | error e => rw [hrem2] at h; exact absurd h (by simp)
            | ok oArt1 =>
              rw [hrem2] at h
              dsimp only at h
              exact fun e he => listRemove_subset hrem2 e (ih h e he)
        · rw [if_neg hcond] at h
          exact ih h

theorem sortInner_oArgs_sub {A : List Dict} {repo repo' : Dict}
    {oArgs both oArt oArgsF bothF oArtF : List Dict}
    (h : sortInner A repo oArgs both oArt = .ok (repo', oArgsF, bothF, oArtF)) :
    ∀ e ∈ oArgsF, e ∈ oArgs := by
  induction A generalizing repo oArgs both oArt with
  | nil =>
    simp only [sortInner, Except.ok.injEq, Prod.mk.injEq] at h
    rw [← h.2.1]
    exact fun e he => he
  | cons it rest ih =>
    unfold sortInner at h
    cases hiv : dictGet it "key" with
    | none => rw [hiv] at h; exact absurd h (by simp)
    | some iv =>
      rw [hiv] at h
      cases hrv : dictGet repo "key" with
      | none => rw [hrv] at h; exact absurd h (by simp)
      | some rv =>
        rw [hrv] at h
        dsimp only at h
        by_cases hcond : strLower (pyStr iv) = strLower (pyStr rv)
        · rw [if_pos hcond] at h
          cases hrem : listRemove oArgs repo with
          | error e => rw [hrem] at h; exact absurd h (by simp)
          | ok oArgs1 =>
            rw [hrem] at h
            cases hrem2 : listRemove oArt (dictSet repo "key" iv) with
            | error e => rw [hrem2] at h; exact absurd h (by simp)
            | ok oArt1 =>
              rw [hrem2] at h
              dsimp only at h
              exact fun e he => listRemove_subset hrem e (ih h e he)
        · rw [if_neg hcond] at h
          exact ih h

theorem sortLoop_oArt_sub {D A : List Dict} :
    ∀ {dAcc oArgs both oArt D' oArgsF bothF oArtF : List Dict},
    sortLoop D A dAcc oArgs both oArt = .ok (D', oArgsF, bothF, oArtF) →
    ∀ e ∈ oArtF, e ∈ oArt := by
  induction D with
  | nil =>
    intro dAcc oArgs both oArt D' oArgsF bothF oArtF h
    simp only [sortLoop, Except.ok.injEq, Prod.mk.injEq] at h
    rw [← h.2.2.2]
    exact fun e he => he
  | cons repo rest ih =>
    intro dAcc oArgs both oArt D' oArgsF bothF oArtF h
    unfold sortLoop at h
    cases hs : sortInner A repo oArgs both oArt with
    | error e => rw [hs] at h; exact absurd h (by simp)
    | ok out =>
      obtain ⟨repo', oArgs1, both1, oArt1⟩ := out
      rw [hs] at h
      dsimp only at h
      exact fun e he => sortInner_oArt_sub hs e (ih h e he)

theorem sortLoop_oArgs_sub {D A : List Dict} :
    ∀ {dAcc oArgs both oArt D' oArgsF bothF oArtF : List Dict},
    sortLoop D A dAcc oArgs both oArt = .ok (D', oArgsF, bothF, oArtF) →
    ∀ e ∈ oArgsF, e ∈ oArgs := by
  induction D with
  | nil =>
    intro dAcc oArgs both oArt D' oArgsF bothF oArtF h
    simp only [sortLoop, Except.ok.injEq, Prod.mk.injEq] at h
    rw [← h.2.1]
    exact fun e he => he
  | cons repo rest ih =>
    intro dAcc oArgs both oArt D' oArgsF bothF oArtF h
    unfold sortLoop at h
    cases hs : sortInner A repo oArgs both oArt with
    | error e => rw [hs] at h; exact absurd h (by simp)
    | ok out =>
      obtain ⟨repo', oArgs1, both1, oArt1⟩ := out
      rw [hs] at h
      dsimp only at h
      exact fun e he => sortInner_oArgs_sub hs e (ih h e he)

/-- A successful partition leaves the desired records untouched except for the
`"key"` field, in order. -/
theorem sortLoop_desired {D A : List Dict} :
    ∀ {dAcc oArgs both oArt D' oArgsF bothF oArtF : List Dict},
    sortLoop D A dAcc oArgs both oArt = .ok (D', oArgsF, bothF, oArtF) →
    ∃ E, D' = dAcc ++ E ∧
      List.Forall₂ (fun r' r => ∀ k, k ≠ "key" → dictGet r' k = dictGet r k) E D := by
  induction D with
  | nil =>
    intro dAcc oArgs both oArt D' oArgsF bothF oArtF h
    simp only [sortLoop, Except.ok.injEq, Prod.mk.injEq] at h
    exact ⟨[], by simp [← h.1], List.Forall₂.nil⟩
  | cons repo rest ih =>
    intro dAcc oArgs both oArt D' oArgsF bothF oArtF h
    unfold sortLoop at h
    cases hs : sortInner A repo oArgs both oArt with
    | error e => rw [hs] at h; exact absurd h (by simp)
    | ok out =>
      obtain ⟨repo', oArgs1, both1, oArt1⟩ := out
      rw [hs] at h
      dsimp only at h
      obtain ⟨E, hE1, hE2⟩ := ih h
      refine ⟨repo' :: E, ?_, List.Forall₂.cons (sortInner_fields hs) hE2⟩
      rw [hE1]
      simp

/-- Every member of the partition's `inBoth` group carries the key value of
some listing item and is matched by a listing element equal to it. -/
theorem sortLoop_both_mem {D A : List Dict} :
    ∀ {dAcc oArgs both oArt D' oArgsF bothF oArtF : List Dict},
    sortLoop D A dAcc oArgs both oArt = .ok (D', oArgsF, bothF, oArtF) →
    ∀ b ∈ bothF, b ∈ both ∨
      ((∃ it ∈ A, dictGet b "key" = dictGet it "key") ∧ ∃ e ∈ oArt, dictEqv e b = true) := by
  induction D with
  | nil =>
    intro dAcc oArgs both oArt D' oArgsF bothF oArtF h
    simp only [sortLoop, Except.ok.injEq, Prod.mk.injEq] at h
    intro b hb
    rw [← h.2.2.1] at hb
    exact Or.inl hb
  | cons repo rest ih =>
    intro dAcc oArgs both oArt D' oArgsF bothF oArtF h
    unfold sortLoop at h
    cases hs : sortInner A repo oArgs both oArt with
    | error e => rw [hs] at h; exact absurd h (by simp)
    | ok out =>
      obtain ⟨repo', oArgs1, both1, oArt1⟩ := out
      rw [hs] at h
      dsimp only at h
      intro b hb
      rcases ih h b hb with hb1 | hb1
      · rcases sortInner_both_mem hs b hb1 with hb2 | hb2
        · exact Or.inl hb2
        · exact Or.inr hb2
      · obtain ⟨hkey, e, he, heqv⟩ := hb1
        exact Or.inr ⟨hkey, e, sortInner_oArt_sub hs e he, heqv⟩


/-- With valid (duplicate-free) desired records, the normalized keys of the
partition's `inBoth` group are pairwise distinct. -/
theorem sortLoop_both_nodup {A : List Dict} (hA : ∀ it ∈ A, (dictGet it "key").isSome) :
    ∀ {D dAcc oArgs both oArt D' oArgsF bothF oArtF : List Dict},
    sortLoop D A dAcc oArgs both oArt = .ok (D', oArgsF, bothF, oArtF) →
    (∀ r ∈ D, (dictGet r "key").isSome) →
    ((both ++ D).map normKey).Nodup →
    (∀ r ∈ D, oArgs.countP (fun e => normKey e == normKey r) ≤ 1) →
    (bothF.map normKey).Nodup := by
  intro D
  induction D with
  | nil =>
    intro dAcc oArgs both oArt D' oArgsF bothF oArtF h _ hnd _
    simp only [sortLoop, Except.ok.injEq, Prod.mk.injEq] at h
    rw [← h.2.2.1]
    simpa using hnd
  | cons repo rest ih =>
    intro dAcc oArgs both oArt D' oArgsF bothF oArtF h hD hnd hone
    unfold sortLoop at h
    cases hs : sortInner A repo oArgs both oArt with
    | error e => rw [hs] at h; exact absurd h (by simp)
    | ok out =>
      obtain ⟨repo', oArgs1, both1, oArt1⟩ := out
      rw [hs] at h
      dsimp only at h
      rcases sortInner_char (hD repo (by simp)) hA (hone repo (by simp)) hs with hl | hr
      · obtain ⟨h1, h2, h3, h4, _⟩ := hl
        rw [h2, h3, h4] at h
        refine ih h (fun r hr => hD r (by simp [hr])) ?_ ?_
        · refine List.Nodup.sublist ?_ hnd
          refine List.Sublist.map normKey ?_
          exact List.Sublist.append_left (List.sublist_cons_self _ _) both
        · exact fun r hr => hone r (by simp [hr])
      · obtain ⟨it, hit, hitnorm, h1, h3, hrem, hrem2⟩ := hr
        have hnormr : normKey repo' = normKey repo := by
          rw [h1, normKey_dictSet_getD, hitnorm]
        subst h3
        refine ih h (fun r hr => hD r (by simp [hr])) ?_ ?_
        · have heq : ((both ++ [repo']) ++ rest).map normKey
              = (both ++ repo :: rest).map normKey := by
            simp only [List.map_append, List.map_cons, List.append_assoc,
              List.singleton_append, List.map_nil]
            rw [hnormr]
          rw [heq]
          exact hnd
        · intro r hr
          calc oArgs1.countP (fun e => normKey e == normKey r)
              ≤ oArgs.countP (fun e => normKey e == normKey r) :=
                List.Sublist.countP_le _ (listRemove_sublist hrem)
            _ ≤ 1 := hone r (by simp [hr])


/-! Lemmas about the three mutation phases. -/

theorem createLoop_eval (m : Call → Bool) (hm : ∀ c, m c = false) :
    ∀ (l : List Dict) (S : Remote), (∀ r ∈ l, ∃ k, urlKey r = .ok k) →
    ∃ tr, createLoop m l S = (tr, .ok (S ++ l)) ∧ ∀ c ∈ tr, c.isMut = true := by
  intro l
  induction l with
  | nil => intro S _; exact ⟨[], by simp [createLoop], by simp⟩
  | cons r rest ih =>
    intro S hl
    obtain ⟨k, hk⟩ := hl r (by simp)
    obtain ⟨tr, htr, hmut⟩ := ih (S ++ [r]) (fun r' hr' => hl r' (by simp [hr']))
    refine ⟨Call.put k r :: tr, ?_, ?_⟩
    · simp only [createLoop, hk, hm (Call.put k r), Bool.false_eq_true, if_false]
      rw [show remoteCreate S r = S ++ [r] from rfl, htr]
      simp
    · intro c hc
      rcases List.mem_cons.mp hc with hc | hc
      · subst hc; rfl
      · exact hmut c hc

theorem createLoop_ok {m : Call → Bool} :
    ∀ {l : List Dict} {S S' : Remote} {tr : List Call},
    createLoop m l S = (tr, .ok S') →
    (∀ r ∈ l, ∃ k, urlKey r = .ok k) ∧ S' = S ++ l := by
  intro l
  induction l with
  | nil =>
    intro S S' tr h
    simp only [createLoop, Prod.mk.injEq, Except.ok.injEq] at h
    exact ⟨by simp, by simp [← h.2]⟩
  | cons r rest ih =>
    intro S S' tr h
    unfold createLoop at h
    cases hk : urlKey r with
    | error e =>
      rw [hk] at h
      dsimp only at h
      simp only [Prod.mk.injEq] at h
      exact absurd h.2 (by simp)
    | ok k =>
      rw [hk] at h
      dsimp only at h
      by_cases hmf : m (Call.put k r) = true
      · rw [if_pos hmf] at h
        simp only [Prod.mk.injEq] at h
        exact absurd h.2 (by simp)
      · rw [if_neg hmf] at h
        rcases hrec : createLoop m rest (remoteCreate S r) with ⟨tr1, r1⟩
        rw [hrec] at h
        dsimp only at h
        simp only [Prod.mk.injEq] at h
        rw [h.2] at hrec
        obtain ⟨hkeys, hS⟩ := ih hrec
        refine ⟨?_, ?_⟩
        · intro r' hr'
          rcases List.mem_cons.mp hr' with hr' | hr'
          · subst hr'; exact ⟨k, hk⟩
          · exact hkeys r' hr'
        · rw [hS]
          simp [remoteCreate]

theorem deleteLoop_check (m : Call → Bool) :
    ∀ (l : List Dict) (S : Remote), deleteLoop true m l S = ([], .ok S) := by
  intro l
  induction l with
  | nil => intro S; rfl
  | cons r rest ih => intro S; simp only [deleteLoop, if_pos rfl]; exact ih S

theorem deleteLoop_ok_exists (m : Call → Bool) (hm : ∀ c, m c = false) :
    ∀ (l : List Dict) (S : Remote), (∀ r ∈ l, ∃ k, urlKey r = .ok k) →
    ∃ tr S', deleteLoop false m l S = (tr, .ok S') := by
  intro l
  induction l with
  | nil => intro S _; exact ⟨[], S, rfl⟩
  | cons r rest ih =>
    intro S hl
    obtain ⟨k, hk⟩ := hl r (by simp)
    obtain ⟨tr, S', htr⟩ := ih (remoteDelete S k) (fun r' hr' => hl r' (by simp [hr']))
    refine ⟨Call.delete k :: tr, S', ?_⟩
    simp only [deleteLoop, Bool.false_eq_true, if_false, hk, hm (Call.delete k)]
    rw [htr]

/-- Deleting, in non-check mode, a batch of records that covers every stored
record by identity key leaves the remote empty. -/
theorem deleteLoop_wipe (m : Call → Bool) (hm : ∀ c, m c = false) :
    ∀ (l : List Dict) (T : Remote),
    (∀ r ∈ l, ∃ k, urlKey r = .ok k) →
    (∀ e ∈ T, (∃ s, dictGet e "key" = some (.str s)) ∧
      ∃ r ∈ l, dictGet r "key" = dictGet e "key") →
    ∃ tr, deleteLoop false m l T = (tr, .ok []) ∧ tr.length = l.length ∧
      ∀ c ∈ tr, ∃ k, c = Call.delete k := by
  intro l
  induction l with
  | nil =>
    intro T _ hT
    have hTnil : T = [] := by
      cases T with
      | nil => rfl
      | cons e rest =>
        obtain ⟨_, r, hr, _⟩ := hT e (by simp)
        exact absurd hr (by simp)
    subst hTnil
    exact ⟨[], rfl, rfl, by simp⟩
  | cons r rest ih =>
    intro T hl hT
    obtain ⟨k, hk⟩ := hl r (by simp)
    have hrk : dictGet r "key" = some (.str k) := urlKey_ok_iff.mp hk
    have hT' : ∀ e ∈ remoteDelete T k, (∃ s, dictGet e "key" = some (.str s)) ∧
        ∃ r' ∈ rest, dictGet r' "key" = dictGet e "key" := by
      intro e he
      unfold remoteDelete at he
      rw [List.mem_filter] at he
      obtain ⟨heT, hek⟩ := he
      obtain ⟨hs, r0, hr0, hr0k⟩ := hT e heT
      refine ⟨hs, ?_⟩
      rcases List.mem_cons.mp hr0 with hr0 | hr0
      · exfalso
        subst hr0
        rw [hrk] at hr0k
        rw [← hr0k] at hek
        simp at hek
      · exact ⟨r0, hr0, hr0k⟩
    obtain ⟨tr, htr, hlen, hdel⟩ := ih (remoteDelete T k)
      (fun r' hr' => hl r' (by simp [hr'])) hT'
    refine ⟨Call.delete k :: tr, ?_, by simp [hlen], ?_⟩
    · simp only [deleteLoop, Bool.false_eq_true, if_false, hk, hm (Call.delete k)]
      rw [htr]
    · intro c hc
      rcases List.mem_cons.mp hc with hc | hc
      · exact ⟨k, hc⟩
      · exact hdel c hc


/-! Lemmas about the update phase loop. -/

/-- One-step evaluation of the update loop once the URL and the read-one GET
are resolved. -/
theorem updateLoop_cons_eval (check : Bool) (m : Call → Bool) (r : Dict)
    (rest : List Dict) (S : Remote) {k : String} {c : Dict}
    (hk : urlKey r = .ok k) (hc : readOne S k = some c) :
    updateLoop check m (r :: rest) S =
      if dictEqv (dictUpdate c r) c then
        (Call.getOne k :: (updateLoop check m rest S).1, (updateLoop check m rest S).2)
      else if check then
        (Call.getOne k :: (updateLoop check m rest S).1,
         (updateLoop check m rest S).2.map (fun sr => (sr.1, sr.2 + 1)))
      else if m (Call.post k r) then
        ([Call.getOne k, Call.post k r],
         .error (.actionFail ("Updating repository config for " ++ k ++ " in artifactory failed")))
      else
        (Call.getOne k :: Call.post k r :: (updateLoop check m rest (remoteUpdate S k r)).1,
         (updateLoop check m rest (remoteUpdate S k r)).2.map (fun sr => (sr.1, sr.2 + 1))) := by
  conv_lhs => rw [updateLoop]
  rw [hk]
  dsimp only
  rw [hc]

/-- When every `inBoth` record's merged future payload equals the fetched
payload, the update loop issues only the reads, changes nothing and counts
zero updates. -/
theorem updateLoop_skip (check : Bool) (m : Call → Bool) :
    ∀ (both : List Dict) (S : Remote),
    (∀ r ∈ both, ∃ k c, urlKey r = .ok k ∧ readOne S k = some c ∧
      dictEqv (dictUpdate c r) c = true) →
    ∃ tr, updateLoop check m both S = (tr, .ok (S, 0)) ∧
      tr.length = both.length ∧ ∀ c' ∈ tr, ∃ k, c' = Call.getOne k := by
  intro both
  induction both with
  | nil => intro S _; exact ⟨[], rfl, rfl, by simp⟩
  | cons r rest ih =>
    intro S h
    obtain ⟨k, c, hk, hc, heqv⟩ := h r (by simp)
    obtain ⟨tr, htr, hlen, hget⟩ := ih S (fun r' hr' => h r' (by simp [hr']))
    rw [updateLoop_cons_eval check m r rest S hk hc, if_pos heqv, htr]
    refine ⟨Call.getOne k :: tr, rfl, by simp [hlen], ?_⟩
    intro c' hc'
    rcases List.mem_cons.mp hc' with hc' | hc'
    · exact ⟨k, hc'⟩
    · exact hget c' hc'

/-- Evaluation of the update loop when the URL construction fails. -/
theorem updateLoop_cons_urlErr (check : Bool) (m : Call → Bool) (r : Dict)
    (rest : List Dict) (S : Remote) {e : PyErr} (hk : urlKey r = .error e) :
    updateLoop check m (r :: rest) S = ([], .error e) := by
  conv_lhs => rw [updateLoop]
  rw [hk]

/-- Evaluation of the update loop when the read-one GET fails. -/
theorem updateLoop_cons_readErr (check : Bool) (m : Call → Bool) (r : Dict)
    (rest : List Dict) (S : Remote) {k : String}
    (hk : urlKey r = .ok k) (hc : readOne S k = none) :
    updateLoop check m (r :: rest) S = ([Call.getOne k],
      .error (.actionFail ("Querying repository config for " ++ k ++ " in artifactory failed"))) := by
  conv_lhs => rw [updateLoop]
  rw [hk]
  dsimp only
  rw [hc]

/-- In check mode the update loop issues no mutating call and leaves the
remote unchanged. -/
theorem updateLoop_check_pure (m : Call → Bool) :
    ∀ (both : List Dict) (S : Remote),
    (∀ c ∈ (updateLoop true m both S).1, c.isMut = false) ∧
    (∀ S' n, (updateLoop true m both S).2 = .ok (S', n) → S' = S) := by
  intro both
  induction both with
  | nil =>
    intro S
    constructor
    · intro c hc
      simp [updateLoop] at hc
    · intro S' n h
      simp only [updateLoop, Except.ok.injEq, Prod.mk.injEq] at h
      exact h.1.symm
  | cons r rest ih =>
    intro S
    cases hk : urlKey r with
    | error e =>
      rw [updateLoop_cons_urlErr true m r rest S hk]
      exact ⟨by simp, by intro S' n h; simp at h⟩
    | ok k =>
      cases hc : readOne S k with
      | none =>
        rw [updateLoop_cons_readErr true m r rest S hk hc]
        constructor
        · intro c hc'
          simp only [List.mem_singleton] at hc'
          subst hc'
          rfl
        · intro S' n h
          simp at h
      | some current =>
        rw [updateLoop_cons_eval true m r rest S hk hc]
        by_cases heqv : dictEqv (dictUpdate current r) current
        · rw [if_pos heqv]
          constructor
          · intro c hc'
            rcases List.mem_cons.mp hc' with hc' | hc'
            · subst hc'; rfl
            · exact (ih S).1 c hc'
          · exact fun S' n h => (ih S).2 S' n h
        · rw [if_neg heqv]
          simp only [eq_self_iff_true, if_true]
          constructor
          · intro c hc'
            rcases List.mem_cons.mp hc' with hc' | hc'
            · subst hc'; rfl
            · exact (ih S).1 c hc'
          · intro S' n h
            cases hrec : (updateLoop true m rest S).2 with
            | error e => rw [hrec] at h; exact absurd h (by simp [Except.map])
            | ok sr =>
              obtain ⟨S0, n0⟩ := sr
              rw [hrec] at h
              simp only [Except.map, Except.ok.injEq, Prod.mk.injEq] at h
              rw [← h.1]
              exact (ih S).2 S0 n0 hrec

/-- A successful check-mode update loop issues exactly one read per `inBoth`
record and nothing else. -/
theorem updateLoop_check_ok_trace (m : Call → Bool) :
    ∀ (both : List Dict) (S : Remote) (tr : List Call) (x : Remote × Nat),
    updateLoop true m both S = (tr, .ok x) →
    tr.length = both.length ∧ ∀ c ∈ tr, ∃ k, c = Call.getOne k := by
  intro both
  induction both with
  | nil =>
    intro S tr x h
    simp only [updateLoop, Prod.mk.injEq] at h
    rw [← h.1]
    exact ⟨rfl, by simp⟩
  | cons r rest ih =>
    intro S tr x h
    cases hk : urlKey r with
    | error e =>
      rw [updateLoop_cons_urlErr true m r rest S hk] at h
      simp only [Prod.mk.injEq] at h
      exact absurd h.2 (by simp)
    | ok k =>
      cases hc : readOne S k with
      | none =>
        rw [updateLoop_cons_readErr true m r rest S hk hc] at h
        simp only [Prod.mk.injEq] at h
        exact absurd h.2 (by simp)
      | some current =>
        rw [updateLoop_cons_eval true m r rest S hk hc] at h
        have hcont : ∃ tr1 x1, updateLoop true m rest S = (tr1, .ok x1) ∧
            tr = Call.getOne k :: tr1 := by
          by_cases heqv : dictEqv (dictUpdate current r) current
          · rw [if_pos heqv] at h
            simp only [Prod.mk.injEq] at h
            exact ⟨(updateLoop true m rest S).1, x,
              by rw [← h.2], h.1.symm⟩
          · rw [if_neg heqv] at h
            simp only [eq_self_iff_true, if_true] at h
            simp only [Prod.mk.injEq] at h
            cases hrec : (updateLoop true m rest S).2 with
            | error e =>
              rw [hrec] at h
              exact absurd h.2 (by simp [Except.map])
            | ok sr =>
              exact ⟨(updateLoop true m rest S).1, sr, by rw [← hrec], h.1.symm⟩
        obtain ⟨tr1, x1, hrec, htr⟩ := hcont
        obtain ⟨hlen, hget⟩ := ih S tr1 x1 hrec
        subst htr
        refine ⟨by simp [hlen], ?_⟩
        intro c' hc'
        rcases List.mem_cons.mp hc' with hc' | hc'
        · exact ⟨k, hc'⟩
        · exact hget c' hc'

/-- A successful update loop resolved every record's URL, so every `inBoth`
record's key value is a string. -/
theorem updateLoop_ok_keys {check : Bool} {m : Call → Bool} :
    ∀ {both : List Dict} {S : Remote} {tr : List Call} {x : Remote × Nat},
    updateLoop check m both S = (tr, .ok x) →
    ∀ r ∈ both, ∃ k, urlKey r = .ok k := by
  intro both
  induction both with
  | nil => simp
  | cons r rest ih =>
    intro S tr x h r' hr'
    cases hk : urlKey r with
    | error e =>
      rw [updateLoop_cons_urlErr check m r rest S hk] at h
      simp only [Prod.mk.injEq] at h
      exact absurd h.2 (by simp)
    | ok k =>
      cases hc : readOne S k with
      | none =>
        rw [updateLoop_cons_readErr check m r rest S hk hc] at h
        simp only [Prod.mk.injEq] at h
        exact absurd h.2 (by simp)
      | some current =>
        rcases List.mem_cons.mp hr' with hr' | hr'
        · subst hr'; exact ⟨k, hk⟩
        · rw [updateLoop_cons_eval check m r rest S hk hc] at h
          by_cases heqv : dictEqv (dictUpdate current r) current
          · rw [if_pos heqv] at h
            simp only [Prod.mk.injEq] at h
            have hrec : updateLoop check m rest S
                = ((updateLoop check m rest S).1, .ok x) := by
              rw [← h.2]
            exact ih hrec r' hr'
          · rw [if_neg heqv] at h
            by_cases hchk : check = true
            · subst hchk
              simp only [eq_self_iff_true, if_true] at h
              simp only [Prod.mk.injEq] at h
              cases hrec : (updateLoop true m rest S).2 with
              | error e =>
                rw [hrec] at h
                exact absurd h.2 (by simp [Except.map])
              | ok sr =>
                have hrec' : updateLoop true m rest S
                    = ((updateLoop true m rest S).1, .ok sr) := by
                  rw [← hrec]
                exact ih hrec' r' hr'
            · have hchk' : check = false := by
                cases check
                · rfl
                · exact absurd rfl hchk
              subst hchk'
              simp only [Bool.false_eq_true, if_false] at h
              by_cases hmf : m (Call.post k r) = true
              · rw [if_pos hmf] at h
                simp only [Prod.mk.injEq] at h
                exact absurd h.2 (by simp)
              · rw [if_neg hmf] at h
                simp only [Prod.mk.injEq] at h
                cases hrec : (updateLoop false m rest (remoteUpdate S k r)).2 with
                | error e =>
                  rw [hrec] at h
                  exact absurd h.2 (by simp [Except.map])
                | ok sr =>
                  have hrec' : updateLoop false m rest (remoteUpdate S k r)
                      = ((updateLoop false m rest (remoteUpdate S k r)).1, .ok sr) := by
                    rw [← hrec]
                  exact ih hrec' r' hr'


/-- Check mode and non-check mode agree on the update decision of every
`inBoth` record, hence on the updated count, as long as the reads return the
same payloads and the records' keys are pairwise distinct. -/
theorem updateLoop_agree (m : Call → Bool) (hm : ∀ c, m c = false) :
    ∀ (both : List Dict) (S Sc : Remote),
    (∀ r ∈ both, ∃ k c, urlKey r = .ok k ∧ readOne S k = some c ∧ readOne Sc k = some c) →
    ((both.map normKey).Nodup) →
    ∃ n S', (updateLoop false m both S).2 = .ok (S', n) ∧
      (updateLoop true m both Sc).2 = .ok (Sc, n) := by
  intro both
  induction both with
  | nil => intro S Sc _ _; exact ⟨0, S, rfl, rfl⟩
  | cons r rest ih =>
    intro S Sc h hnodup
    obtain ⟨k, c, hk, hcS, hcSc⟩ := h r (by simp)
    simp only [List.map_cons, List.nodup_cons] at hnodup
    rw [updateLoop_cons_eval false m r rest S hk hcS,
      updateLoop_cons_eval true m r rest Sc hk hcSc]
    by_cases heqv : dictEqv (dictUpdate c r) c
    · rw [if_pos heqv, if_pos heqv]
      obtain ⟨n, S', h1, h2⟩ := ih S Sc (fun r' hr' => h r' (by simp [hr'])) hnodup.2
      exact ⟨n, S', h1, h2⟩
    · rw [if_neg heqv, if_neg heqv]
      simp only [eq_self_iff_true, if_true, Bool.false_eq_true, if_false,
        hm (Call.post k r)]
      have hreads : ∀ r' ∈ rest, ∃ k' c', urlKey r' = .ok k' ∧
          readOne (remoteUpdate S k r) k' = some c' ∧ readOne Sc k' = some c' := by
        intro r' hr'
        obtain ⟨k', c', hk', hcS', hcSc'⟩ := h r' (by simp [hr'])
        have hkne : k' ≠ k := by
          intro hkk
          apply hnodup.1
          have h1 : normKey r = strLower k := normKey_of_urlKey hk
          have h2 : normKey r' = strLower k' := normKey_of_urlKey hk'
          have : normKey r' = normKey r := by rw [h1, h2, hkk]
          rw [← this]
          exact List.mem_map.mpr ⟨r', hr', rfl⟩
        refine ⟨k', c', hk', ?_, hcSc'⟩
        rw [readOne_remoteUpdate_ne (urlKey_ok_iff.mp hk) hkne]
        exact hcS'
      obtain ⟨n, S', h1, h2⟩ := ih (remoteUpdate S k r) Sc hreads hnodup.2
      refine ⟨n + 1, S', ?_, ?_⟩
      · dsimp only
        rw [h1]
        rfl
      · dsimp only
        rw [h2]
        rfl


/-- Unfolding of `runRepo` once validation and partition results are known. -/
theorem runRepo_eval {state : String} {check : Bool} {m : Call → Bool}
    {desired : List Dict} {S : Remote} {st : String}
    {D' oArgs both oArt : List Dict}
    (hv : validateArgs desired state = .ok st)
    (hs : sortRepos desired S = .ok (D', oArgs, both, oArt)) :
    runRepo state check m desired S = runPhases st check m D' oArgs both oArt S := by
  unfold runRepo
  rw [hv]
  dsimp only
  rw [hs]

/-- Unfolding of `runRepo` when validation fails. -/
theorem runRepo_validateErr {state : String} {check : Bool} {m : Call → Bool}
    {desired : List Dict} {S : Remote} {e : PyErr}
    (hv : validateArgs desired state = .error e) :
    runRepo state check m desired S = ([], .error e) := by
  unfold runRepo
  rw [hv]

/-- Unfolding of `runRepo` when the partition fails. -/
theorem runRepo_sortErr {state : String} {check : Bool} {m : Call → Bool}
    {desired : List Dict} {S : Remote} {st : String} {e : PyErr}
    (hv : validateArgs desired state = .ok st)
    (hs : sortRepos desired S = .error e) :
    runRepo state check m desired S = ([Call.listAll], .error e) := by
  unfold runRepo
  rw [hv]
  dsimp only
  rw [hs]


/-! Claim theorems. -/

/-- C1: the claim states that the partition always yields three groups whose
identity keys reconstruct the desired and actual key sets disjointly.  The
code violates it: evaluating the partition of
`ActionModule.run` on desired `[{key:"a", rclass:"local", packageType:"maven"}]`
and actual `[{key:"a"}]` raises Python `ValueError` instead of producing any
partition, because line 197 removes the *desired* dictionary (compared by full
equality) from `onlyInArtifactory` rather than the matched actual item. -/
theorem c1_partition_raises_valueError :
    sortRepos [[("key", .str "a"), ("rclass", .str "local"), ("packageType", .str "maven")]]
      [[("key", .str "a")]] = .error .valueError := by decide

/-- C5: the claim states that the certificate-validation boolean handed to the
transport is the negation of the ignore-CA flag, with validation enabled by
default.  `ArtifactoryApi._sendRequest` (line 192) passes
`validate_certs=self.ignore_ca_error` without negation, so at the default
(`ignore_ca_error=False`) certificate validation is disabled — the opposite of
the claim and of the constructor's own docstring — while the action plugin's
`uri` path does implement the negation. -/
theorem c5_sendRequest_passes_flag_unnegated :
    sendRequestValidateCerts ignoreCaDefault = false ∧
    ¬(sendRequestValidateCerts ignoreCaDefault = !ignoreCaDefault) ∧
    uriValidateCerts ignoreCaDefault = !ignoreCaDefault := by decide

/-- C6: the claim states that with a valid desired list and successful remote
calls every operation terminates normally with the changed flag and counters.
The code violates it: a `Present` run with desired
`[{key:"app", rclass:"local", packageType:"npm"}]` against actual
`[{key:"app", type:"LOCAL"}]`, with every remote call succeeding, raises
Python `ValueError` from the partition (an exception outside the
validation/remote-error taxonomy) right after the listing GET. -/
theorem c6_present_run_raises_valueError :
    runRepo "Present" false noFail
      [[("key", .str "app"), ("rclass", .str "local"), ("packageType", .str "npm")]]
      [[("key", .str "app"), ("type", .str "LOCAL")]]
      = ([Call.listAll], .error .valueError) := by decide

/-- C3 (counterexample): the dry-run purity claim quantifies over every desired
list, but on desired `[{key:5, rclass:"local", packageType:"maven"}]` (an
integer identity key) against an empty actual state, check mode reports
`changed=true, added=1` while the non-check run raises Python `TypeError`
when concatenating the key into the PUT URL — the two modes do not return the
same counts. -/
theorem c3_counterexample_nonstring_key :
    (runRepo "Present" true noFail
      [[("key", .int 5), ("rclass", .str "local"), ("packageType", .str "maven")]] []).2
      = .ok { desiredAfter := [[("key", .int 5), ("rclass", .str "local"),
                ("packageType", .str "maven")]],
              remote := [], changed := true, added := 1, updated := 0, deleted := 0 } ∧
    (runRepo "Present" false noFail
      [[("key", .int 5), ("rclass", .str "local"), ("packageType", .str "maven")]] []).2
      = .error .typeError := by decide

/-- C9 (counterexample): the claim states that desired records are immutable
inputs.  The code violates it: on desired `[{key:"myrepo", ...}]` against
actual `[{key:"MyRepo", ...}]`, the run completes and afterwards the desired
record's key field holds `"MyRepo"` — line 195 (`repo['key'] = item['key']`)
wrote the server's capitalization into the caller's record. -/
theorem c9_counterexample_desired_mutated :
    (runRepo "Present" false noFail
      [[("key", .str "myrepo"), ("rclass", .str "local"), ("packageType", .str "maven")]]
      [[("key", .str "MyRepo"), ("rclass", .str "local"), ("packageType", .str "maven")]]).2
      = .ok { desiredAfter := [[("key", .str "MyRepo"), ("rclass", .str "local"),
                ("packageType", .str "maven")]],
              remote := [[("key", .str "MyRepo"), ("rclass", .str "local"),
                ("packageType", .str "maven")]],
              changed := false, added := 0, updated := 0, deleted := 0 } ∧
    ¬([[("key", Value.str "MyRepo"), ("rclass", Value.str "local"),
        ("packageType", Value.str "maven")]]
      = ([[("key", Value.str "myrepo"), ("rclass", Value.str "local"),
        ("packageType", Value.str "maven")]] : List Dict)) := by decide

/-- C2: for a record `r` in `inBoth` during a Present or Prune run, the engine
fetches the current remote payload `c` for `r`'s key, merges the desired
payload over a copy of it, and issues the POST for `r` exactly when the merged
future record differs from `c` under extensional (deep) equality — counting
one update in that case and zero otherwise; and when the desired record is
deeply equal to the fetched payload the merge reproduces the payload, so no
update call is issued and the count for `r` is 0. -/
theorem c2_update_iff_merge_differs (r c : Dict) (S : Remote) (k : String)
    (m : Call → Bool) (hk : urlKey r = .ok k) (hc : readOne S k = some c)
    (hm : m (Call.post k r) = false) :
    (updateLoop false m [r] S =
      if dictEqv (dictUpdate c r) c then ([Call.getOne k], .ok (S, 0))
      else ([Call.getOne k, Call.post k r], .ok (remoteUpdate S k r, 1))) ∧
    (WfKeys r → dictEqv r c = true → dictEqv (dictUpdate c r) c = true) := by
  constructor
  · rw [updateLoop_cons_eval false m r [] S hk hc]
    by_cases heqv : dictEqv (dictUpdate c r) c
    · rw [if_pos heqv, if_pos heqv]
      rfl
    · rw [if_neg heqv, if_neg heqv]
      simp only [Bool.false_eq_true, if_false, hm]
      rfl
  · exact fun hwf he => dictUpdate_skip hwf he

/-- C2 witness: the spec's own example — actual `{key:"a", enabled:true}` and
deeply-equal desired `{key:"a", enabled:true}` — satisfies the hypotheses, and
the theorem yields one read, no POST and an update count of 0. -/
theorem c2_update_iff_merge_differs_witness :
    urlKey [("key", Value.str "a"), ("enabled", Value.bool true)] = .ok "a" ∧
    readOne [[("key", Value.str "a"), ("enabled", Value.bool true)]] "a"
      = some [("key", Value.str "a"), ("enabled", Value.bool true)] ∧
    noFail (Call.post "a" [("key", Value.str "a"), ("enabled", Value.bool true)]) = false ∧
    ((updateLoop false noFail [[("key", Value.str "a"), ("enabled", Value.bool true)]]
        [[("key", Value.str "a"), ("enabled", Value.bool true)]] =
      if dictEqv (dictUpdate [("key", Value.str "a"), ("enabled", Value.bool true)]
          [("key", Value.str "a"), ("enabled", Value.bool true)])
          [("key", Value.str "a"), ("enabled", Value.bool true)]
      then ([Call.getOne "a"], .ok ([[("key", Value.str "a"), ("enabled", Value.bool true)]], 0))
      else ([Call.getOne "a", Call.post "a" [("key", Value.str "a"), ("enabled", Value.bool true)]],
        .ok (remoteUpdate [[("key", Value.str "a"), ("enabled", Value.bool true)]] "a"
          [("key", Value.str "a"), ("enabled", Value.bool true)], 1))) ∧
    (WfKeys [("key", Value.str "a"), ("enabled", Value.bool true)] →
      dictEqv [("key", Value.str "a"), ("enabled", Value.bool true)]
        [("key", Value.str "a"), ("enabled", Value.bool true)] = true →
      dictEqv (dictUpdate [("key", Value.str "a"), ("enabled", Value.bool true)]
          [("key", Value.str "a"), ("enabled", Value.bool true)])
        [("key", Value.str "a"), ("enabled", Value.bool true)] = true)) :=
  ⟨by decide, by decide, rfl,
    c2_update_iff_merge_differs
      [("key", Value.str "a"), ("enabled", Value.bool true)]
      [("key", Value.str "a"), ("enabled", Value.bool true)]
      [[("key", Value.str "a"), ("enabled", Value.bool true)]]
      "a" noFail (by decide) (by decide) rfl⟩


/-! Support lemmas for the duplicate-key validation claim. -/

theorem checkRequiredAll_of {D : List Dict} (h : ∀ r ∈ D, ∃ u, checkRequired r = .ok u) :
    checkRequiredAll D = .ok () := by
  induction D with
  | nil => rfl
  | cons r rest ih =>
    obtain ⟨u, hu⟩ := h r (by simp)
    unfold checkRequiredAll
    rw [hu]
    exact ih (fun r' hr' => h r' (by simp [hr']))

theorem keyLowerStrict_of {d : Dict} {sk : String} (h : dictGet d "key" = some (.str sk)) :
    keyLowerStrict d = .ok (strLower sk) := by
  unfold keyLowerStrict
  rw [h]

theorem dupCheckOne_cases {r : Dict} {rs : List Dict}
    (hr : ∃ sk, dictGet r "key" = some (.str sk))
    (hrs : ∀ e ∈ rs, ∃ sk, dictGet e "key" = some (.str sk)) :
    dupCheckOne r rs = .ok () ∨ dupCheckOne r rs = .error (.optionsError dupMsg) := by
  induction rs with
  | nil => exact Or.inl rfl
  | cons e rest ih =>
    obtain ⟨sk, hk⟩ := hr
    obtain ⟨se, he⟩ := hrs e (by simp)
    unfold dupCheckOne
    rw [keyLowerStrict_of hk, keyLowerStrict_of he]
    dsimp only
    by_cases hkk : strLower sk = strLower se
    · rw [if_pos hkk]
      exact Or.inr rfl
    · rw [if_neg hkk]
      exact ih (fun e' he' => hrs e' (by simp [he']))

theorem dupCheck_cases {D : List Dict}
    (hD : ∀ r ∈ D, ∃ sk, dictGet r "key" = some (.str sk)) :
    dupCheck D = .ok () ∨ dupCheck D = .error (.optionsError dupMsg) := by
  induction D with
  | nil => exact Or.inl rfl
  | cons r rest ih =>
    unfold dupCheck
    rcases dupCheckOne_cases (hD r (by simp))
      (fun e he => hD e (List.mem_cons_of_mem _ he)) with h | h
    · rw [h]
      exact ih (fun r' hr' => hD r' (by simp [hr']))
    · rw [h]
      exact Or.inr rfl

theorem not_nodup_of_get_eq {D : List Dict} {i j : Nat} (hij : i < j) (hj : j < D.length)
    (h : normKey (D.get ⟨i, Nat.lt_trans hij hj⟩) = normKey (D.get ⟨j, hj⟩)) :
    ¬(D.map normKey).Nodup := by
  intro hnodup
  have hi' : i < (D.map normKey).length := by simpa using Nat.lt_trans hij hj
  have hj' : j < (D.map normKey).length := by simpa using hj
  have hget : (D.map normKey).get ⟨i, hi'⟩ = (D.map normKey).get ⟨j, hj'⟩ := by
    rw [List.get_map, List.get_map]
    exact h
  have := (List.Nodup.get_inj_iff hnodup).mp hget
  simp only [Fin.mk.injEq] at this
  omega

/-- C7: with the required fields present and string identity keys, a desired
list containing two records whose keys are equal case-insensitively makes the
run raise the duplicate-key `AnsibleOptionsError` with an empty remote trace —
before any remote call, whatever the requested target state (even an invalid
one) and whatever the records' other fields. -/
theorem c7_duplicate_keys_rejected (st : String) (chk : Bool) (m : Call → Bool)
    (D : List Dict) (S : Remote)
    (hfields : ∀ r ∈ D, ∃ u, checkRequired r = .ok u)
    (hkeys : ∀ r ∈ D, ∃ sk, dictGet r "key" = some (.str sk))
    (i j : Nat) (hij : i < j) (hj : j < D.length)
    (hdup : normKey (D.get ⟨i, Nat.lt_trans hij hj⟩) = normKey (D.get ⟨j, hj⟩)) :
    runRepo st chk m D S = ([], .error (.optionsError dupMsg)) := by
  have hdc : dupCheck D = .error (.optionsError dupMsg) := by
    rcases dupCheck_cases hkeys with h | h
    · exact absurd (dupCheck_nodup h) (not_nodup_of_get_eq hij hj hdup)
    · exact h
  have hv : validateArgs D st = .error (.optionsError dupMsg) := by
    unfold validateArgs
    rw [checkRequiredAll_of hfields]
    dsimp only
    rw [hdc]
  exact runRepo_validateErr hv

/-- C7 witness: desired `[{key:"Foo",...}, {key:"foo",...}]` with differing
other fields, an arbitrary target state string and populated remote state. -/
theorem c7_duplicate_keys_rejected_witness :
    (∀ r ∈ ([[("key", Value.str "Foo"), ("rclass", Value.str "local"),
        ("packageType", Value.str "maven")],
       [("key", Value.str "foo"), ("rclass", Value.str "remote"),
        ("packageType", Value.str "npm")]] : List Dict), ∃ u, checkRequired r = .ok u) ∧
    (∀ r ∈ ([[("key", Value.str "Foo"), ("rclass", Value.str "local"),
        ("packageType", Value.str "maven")],
       [("key", Value.str "foo"), ("rclass", Value.str "remote"),
        ("packageType", Value.str "npm")]] : List Dict),
      ∃ sk, dictGet r "key" = some (.str sk)) ∧
    runRepo "Prune" false noFail
      [[("key", Value.str "Foo"), ("rclass", Value.str "local"),
        ("packageType", Value.str "maven")],
       [("key", Value.str "foo"), ("rclass", Value.str "remote"),
        ("packageType", Value.str "npm")]]
      [[("key", Value.str "other")]]
      = ([], .error (.optionsError dupMsg)) :=
  ⟨by
    intro r hr
    fin_cases hr
    · exact ⟨(), by decide⟩
    · exact ⟨(), by decide⟩,
   by
    intro r hr
    fin_cases hr
    · exact ⟨"Foo", by decide⟩
    · exact ⟨"foo", by decide⟩,
   c7_duplicate_keys_rejected "Prune" false noFail _ _
     (by
       intro r hr
       fin_cases hr
       · exact ⟨(), by decide⟩
       · exact ⟨(), by decide⟩)
     (by
       intro r hr
       fin_cases hr
       · exact ⟨"Foo", by decide⟩
       · exact ⟨"foo", by decide⟩)
     0 1 (by decide) (by decide) (by decide)⟩


/-- C4: a `Prune` run with an empty desired list against a non-empty actual
state (with string identity keys, all deletions accepted) terminates with
`changed=true` and `deletedCount = len(actual)`, issues one DELETE per actual
record, and leaves the remote state empty. -/
theorem c4_prune_empty_desired_wipes (S : Remote) (m : Call → Bool)
    (hm : ∀ c, m c = false) (hne : S ≠ [])
    (hkeys : ∀ e ∈ S, ∃ sk, dictGet e "key" = some (.str sk)) :
    ∃ tr, runRepo "Prune" false m [] S
      = (Call.listAll :: tr, .ok ⟨[], [], true, 0, 0, S.length⟩) ∧
      tr.length = S.length ∧ ∀ c ∈ tr, ∃ k, c = Call.delete k := by
  have hv : validateArgs [] "Prune" = .ok "prune" := by decide
  have hs : sortRepos [] S = .ok ([], [], [], S) := rfl
  rw [runRepo_eval hv hs]
  have hSe : S.isEmpty = false := by
    cases S
    · exact absurd rfl hne
    · rfl
  have hlen : ¬(S.length = 0) := by
    cases S
    · exact absurd rfl hne
    · simp
  obtain ⟨tr, htr, hlen2, hdel⟩ := deleteLoop_wipe m hm S S
    (fun r hr => (hkeys r hr).imp (fun sk hsk => urlKey_ok_iff.mpr hsk))
    (fun e he => ⟨hkeys e he, e, he, rfl⟩)
  refine ⟨tr, ?_, hlen2, hdel⟩
  simp only [runPhases, List.isEmpty_nil, Bool.not_true, Bool.and_false, hSe,
    Bool.not_false, Bool.and_true, if_false, Bool.false_eq_true, decide_True,
    eq_self_iff_true, if_true, htr, hlen, Nat.zero_add, decide_False, Bool.not_false]
  simp [hlen]

/-- C4 witness: pruning with an empty desired list against two stored
repositories deletes both, reporting `deletedCount=2, changed=true`. -/
theorem c4_prune_empty_desired_wipes_witness :
    (∀ c, noFail c = false) ∧
    ([[("key", Value.str "a")], [("key", Value.str "b"), ("x", Value.int 1)]] : Remote) ≠ [] ∧
    (∀ e ∈ ([[("key", Value.str "a")], [("key", Value.str "b"), ("x", Value.int 1)]] : Remote),
      ∃ sk, dictGet e "key" = some (.str sk)) ∧
    ∃ tr, runRepo "Prune" false noFail []
        [[("key", Value.str "a")], [("key", Value.str "b"), ("x", Value.int 1)]]
      = (Call.listAll :: tr, .ok ⟨[], [], true, 0, 0,
          ([[("key", Value.str "a")], [("key", Value.str "b"), ("x", Value.int 1)]] : Remote).length⟩) ∧
      tr.length = ([[("key", Value.str "a")],
        [("key", Value.str "b"), ("x", Value.int 1)]] : Remote).length ∧
      ∀ c ∈ tr, ∃ k, c = Call.delete k :=
  ⟨fun _ => rfl, by decide,
   by
     intro e he
     rcases List.mem_cons.mp he with h | h
     · exact ⟨"a", by rw [h]; rfl⟩
     · rcases List.mem_cons.mp h with h2 | h2
       · exact ⟨"b", by rw [h2]; rfl⟩
       · simp at h2,
   c4_prune_empty_desired_wipes _ noFail (fun _ => rfl) (by decide)
     (by
       intro e he
       rcases List.mem_cons.mp he with h | h
       · exact ⟨"a", by rw [h]; rfl⟩
       · rcases List.mem_cons.mp h with h2 | h2
         · exact ⟨"b", by rw [h2]; rfl⟩
         · simp at h2)⟩


/-- C10: a successful `Present` or `Prune` run in check (dry-run) mode still
issues exactly one read-one GET per record of the partition's `inBoth` group —
dry-run is free of mutations but not of remote reads. -/
theorem c10_dryrun_reads_per_inBoth (st : String) (m : Call → Bool)
    (D : List Dict) (S : Remote) (tr : List Call) (res : RunResult)
    (h : runRepo st true m D S = (tr, .ok res))
    (hst : strLower st = "present" ∨ strLower st = "prune")
    (D' oArgs both oArt : List Dict)
    (hsort : sortRepos D S = .ok (D', oArgs, both, oArt)) :
    (tr.filter Call.isGetOne).length = both.length := by
  cases hval : validateArgs D st with
  | error e =>
    rw [runRepo_validateErr hval] at h
    simp only [Prod.mk.injEq] at h
    exact absurd h.2 (by simp)
  | ok st' =>
    rw [runRepo_eval hval hsort] at h
    have hst' : st' = "present" ∨ st' = "prune" := by
      have := (checkState_ok (validateArgs_ok hval).2.2).1
      rcases hst with h1 | h1
      · exact Or.inl (this.trans h1)
      · exact Or.inr (this.trans h1)
    by_cases hbe : both.isEmpty = true
    · have hboth : both = [] := by
        cases both
        · rfl
        · simp at hbe
      subst hboth
      rcases hst' with h1 | h1 <;> subst h1 <;>
        simp only [runPhases, Bool.not_true, Bool.and_false, Bool.false_eq_true, if_false,
          List.isEmpty_nil, deleteLoop_check, List.nil_append, List.append_nil,
          Prod.mk.injEq] at h <;>
        rw [← h.1] <;> rfl
    · have hbe' : (!both.isEmpty) = true := by
        cases hb : both.isEmpty
        · rfl
        · exact absurd hb hbe
      rcases hu : updateLoop true m both S with ⟨tr2, r2⟩
      rcases hst' with h1 | h1 <;> subst h1 <;>
        simp only [runPhases, Bool.not_true, Bool.and_false, Bool.false_eq_true, if_false,
          hbe', Bool.and_true, decide_True, Bool.true_or, Bool.or_true,
          show decide (("prune" : String) = "present") = false from by decide,
          Bool.false_or, eq_self_iff_true, if_true,
          List.isEmpty_nil, deleteLoop_check, List.nil_append, List.append_nil] at h <;>
        rw [hu] at h <;>
      · cases r2 with
        | error e =>
          simp only [Prod.mk.injEq] at h
          exact absurd h.2 (by simp)
        | ok x =>
          obtain ⟨S2, u⟩ := x
          simp only [Prod.mk.injEq] at h
          obtain ⟨hlen, hget⟩ := updateLoop_check_ok_trace m both S tr2 (S2, u) hu
          rw [← h.1]
          have hfilter : List.filter Call.isGetOne tr2 = tr2 := by
            rw [List.filter_eq_self]
            intro a ha
            obtain ⟨k, hk⟩ := hget a ha
            rw [hk]
            rfl
          have hstep : List.filter Call.isGetOne ([Call.listAll] ++ tr2)
              = List.filter Call.isGetOne tr2 := rfl
          rw [hstep, hfilter]
          exact hlen

/-- C10 witness: a check-mode `Prune` run with one matched repository and one
unmatched stored repository issues exactly one read-one GET, matching the
single `inBoth` record. -/
theorem c10_dryrun_reads_per_inBoth_witness :
    runRepo "Prune" true noFail
      [[("key", Value.str "r1"), ("rclass", Value.str "local"), ("packageType", Value.str "maven")]]
      [[("key", Value.str "r1"), ("rclass", Value.str "local"), ("packageType", Value.str "maven")],
       [("key", Value.str "r2"), ("rclass", Value.str "local"), ("packageType", Value.str "npm")]]
      = ([Call.listAll, Call.getOne "r1"],
         .ok ⟨[[("key", Value.str "r1"), ("rclass", Value.str "local"),
            ("packageType", Value.str "maven")]],
           [[("key", Value.str "r1"), ("rclass", Value.str "local"),
            ("packageType", Value.str "maven")],
            [("key", Value.str "r2"), ("rclass", Value.str "local"),
            ("packageType", Value.str "npm")]],
           true, 0, 0, 1⟩) ∧
    (strLower "Prune" = "present" ∨ strLower "Prune" = "prune") ∧
    sortRepos
      [[("key", Value.str "r1"), ("rclass", Value.str "local"), ("packageType", Value.str "maven")]]
      [[("key", Value.str "r1"), ("rclass", Value.str "local"), ("packageType", Value.str "maven")],
       [("key", Value.str "r2"), ("rclass", Value.str "local"), ("packageType", Value.str "npm")]]
      = .ok ([[("key", Value.str "r1"), ("rclass", Value.str "local"),
          ("packageType", Value.str "maven")]], [],
         [[("key", Value.str "r1"), ("rclass", Value.str "local"),
          ("packageType", Value.str "maven")]],
         [[("key", Value.str "r2"), ("rclass", Value.str "local"),
          ("packageType", Value.str "npm")]]) ∧
    (([Call.listAll, Call.getOne "r1"].filter Call.isGetOne).length
      = ([[("key", Value.str "r1"), ("rclass", Value.str "local"),
          ("packageType", Value.str "maven")]] : List Dict).length) :=
  ⟨by decide, Or.inr (by decide), by decide,
   c10_dryrun_reads_per_inBoth "Prune" noFail
     [[("key", Value.str "r1"), ("rclass", Value.str "local"), ("packageType", Value.str "maven")]]
     [[("key", Value.str "r1"), ("rclass", Value.str "local"), ("packageType", Value.str "maven")],
      [("key", Value.str "r2"), ("rclass", Value.str "local"), ("packageType", Value.str "npm")]]
     [Call.listAll, Call.getOne "r1"]
     ⟨[[("key", Value.str "r1"), ("rclass", Value.str "local"),
        ("packageType", Value.str "maven")]],
       [[("key", Value.str "r1"), ("rclass", Value.str "local"),
        ("packageType", Value.str "maven")],
        [("key", Value.str "r2"), ("rclass", Value.str "local"),
        ("packageType", Value.str "npm")]],
       true, 0, 0, 1⟩
     (by decide) (Or.inr (by decide))
     [[("key", Value.str "r1"), ("rclass", Value.str "local"), ("packageType", Value.str "maven")]]
     []
     [[("key", Value.str "r1"), ("rclass", Value.str "local"), ("packageType", Value.str "maven")]]
     [[("key", Value.str "r2"), ("rclass", Value.str "local"), ("packageType", Value.str "npm")]]
     (by decide)⟩


/-- Every successfully completed run hands back the partition's final desired
list unchanged. -/
theorem runPhases_ok_desired {st : String} {chk : Bool} {m : Call → Bool}
    {D' oArgs both oArt : List Dict} {S : Remote} {tr : List Call} {res : RunResult}
    (h : runPhases st chk m D' oArgs both oArt S = (tr, .ok res)) :
    res.desiredAfter = D' := by
  unfold runPhases at h
  dsimp only at h
  repeat' split at h
  all_goals first
    | exact Except.noConfusion (congrArg Prod.snd h)
    | (rw [← Except.ok.inj (congrArg Prod.snd h)])

/-- C9 (amended): after any successfully completed run, the desired list has
the same length and every desired record holds exactly the field values it was
constructed with, except possibly its `"key"` field (which the partition
overwrites in place with the actual record's capitalization for `inBoth`
records). -/
theorem c9_amended_only_key_field_mutated (st : String) (chk : Bool)
    (m : Call → Bool) (D : List Dict) (S : Remote) (tr : List Call)
    (res : RunResult) (h : runRepo st chk m D S = (tr, .ok res)) :
    res.desiredAfter.length = D.length ∧
    ∀ (i : Nat) (hi : i < res.desiredAfter.length) (hi' : i < D.length) (k : String),
      k ≠ "key" →
      dictGet (res.desiredAfter.get ⟨i, hi⟩) k = dictGet (D.get ⟨i, hi'⟩) k := by
  cases hval : validateArgs D st with
  | error e =>
    rw [runRepo_validateErr hval] at h
    simp only [Prod.mk.injEq] at h
    exact absurd h.2 (by simp)
  | ok st' =>
    cases hsort : sortRepos D S with
    | error e =>
      rw [runRepo_sortErr hval hsort] at h
      simp only [Prod.mk.injEq] at h
      exact absurd h.2 (by simp)
    | ok out =>
      obtain ⟨D', oArgs, both, oArt⟩ := out
      rw [runRepo_eval hval hsort] at h
      have hdes : res.desiredAfter = D' := runPhases_ok_desired h
      obtain ⟨E, hE1, hE2⟩ := sortLoop_desired hsort
      rw [List.nil_append] at hE1
      subst hE1
      rw [List.forall₂_iff_get] at hE2
      rw [hdes]
      exact ⟨hE2.1, fun i hi hi' k hk => hE2.2 i hi hi' k hk⟩

/-- C9 (amended) witness: the key-capitalization scenario satisfies the
amended claim — the run succeeds and the non-key fields of the desired record
are untouched. -/
theorem c9_amended_only_key_field_mutated_witness :
    runRepo "Present" false noFail
      [[("key", Value.str "myrepo"), ("rclass", Value.str "local"),
        ("packageType", Value.str "maven")]]
      [[("key", Value.str "MyRepo"), ("rclass", Value.str "local"),
        ("packageType", Value.str "maven")]]
      = ([Call.listAll, Call.getOne "MyRepo"],
         .ok ⟨[[("key", Value.str "MyRepo"), ("rclass", Value.str "local"),
            ("packageType", Value.str "maven")]],
           [[("key", Value.str "MyRepo"), ("rclass", Value.str "local"),
            ("packageType", Value.str "maven")]], false, 0, 0, 0⟩) ∧
    ((⟨[[("key", Value.str "MyRepo"), ("rclass", Value.str "local"),
        ("packageType", Value.str "maven")]],
       [[("key", Value.str "MyRepo"), ("rclass", Value.str "local"),
        ("packageType", Value.str "maven")]], false, 0, 0, 0⟩ : RunResult).desiredAfter.length
      = ([[("key", Value.str "myrepo"), ("rclass", Value.str "local"),
          ("packageType", Value.str "maven")]] : List Dict).length ∧
     ∀ (i : Nat)
       (hi : i < (⟨[[("key", Value.str "MyRepo"), ("rclass", Value.str "local"),
          ("packageType", Value.str "maven")]],
         [[("key", Value.str "MyRepo"), ("rclass", Value.str "local"),
          ("packageType", Value.str "maven")]], false, 0, 0, 0⟩ : RunResult).desiredAfter.length)
       (hi' : i < ([[("key", Value.str "myrepo"), ("rclass", Value.str "local"),
          ("packageType", Value.str "maven")]] : List Dict).length) (k : String),
       k ≠ "key" →
       dictGet ((⟨[[("key", Value.str "MyRepo"), ("rclass", Value.str "local"),
            ("packageType", Value.str "maven")]],
           [[("key", Value.str "MyRepo"), ("rclass", Value.str "local"),
            ("packageType", Value.str "maven")]], false, 0, 0, 0⟩ : RunResult).desiredAfter.get ⟨i, hi⟩) k
         = dictGet (([[("key", Value.str "myrepo"), ("rclass", Value.str "local"),
            ("packageType", Value.str "maven")]] : List Dict).get ⟨i, hi'⟩) k) :=
  ⟨by decide,
   c9_amended_only_key_field_mutated "Present" false noFail
     [[("key", Value.str "myrepo"), ("rclass", Value.str "local"),
       ("packageType", Value.str "maven")]]
     [[("key", Value.str "MyRepo"), ("rclass", Value.str "local"),
       ("packageType", Value.str "maven")]]
     [Call.listAll, Call.getOne "MyRepo"]
     ⟨[[("key", Value.str "MyRepo"), ("rclass", Value.str "local"),
        ("packageType", Value.str "maven")]],
       [[("key", Value.str "MyRepo"), ("rclass", Value.str "local"),
        ("packageType", Value.str "maven")]], false, 0, 0, 0⟩
     (by decide)⟩


/-- `runPhases` written through `phasedRun`, with the guard expressions made
explicit. -/
theorem runPhases_eq_phased (st : String) (check : Bool) (m : Call → Bool)
    (D' oArgs both oArt : List Dict) (S : Remote) :
    runPhases st check m D' oArgs both oArt S
      = phasedRun check m
          ((decide (st = "present") || decide (st = "prune")) && !oArgs.isEmpty && !check)
          (if (decide (st = "present") || decide (st = "prune")) && !oArgs.isEmpty
           then oArgs.length else 0)
          ((decide (st = "present") || decide (st = "prune")) && !both.isEmpty)
          (if decide (st = "absent") && !both.isEmpty then both
           else if decide (st = "prune") && !oArt.isEmpty then oArt else [])
          D' oArgs both S := rfl

/-- A check-mode `phasedRun` with the update guard off touches nothing. -/
theorem phasedRun_check_noupdate (m : Call → Bool) (A : Nat)
    (T D' oArgs both : List Dict) (S : Remote) :
    phasedRun true m false A false T D' oArgs both S
      = ([Call.listAll],
         .ok ⟨D', S, !(A + 0 + (if T.isEmpty then 0 else T.length) = 0), A, 0,
           if T.isEmpty then 0 else T.length⟩) := by
  simp only [phasedRun, Bool.false_eq_true, if_false, deleteLoop_check,
    List.nil_append, List.append_nil]

/-- A check-mode `phasedRun` whose update loop succeeds without moving the
remote: the full evaluation. -/
theorem phasedRun_check_of_update (A : Nat) (T D' oArgs : List Dict)
    {m : Call → Bool} {both : List Dict} {S : Remote} {tr2 : List Call} {n : Nat}
    (hu : updateLoop true m both S = (tr2, .ok (S, n))) :
    phasedRun true m false A true T D' oArgs both S
      = (Call.listAll :: tr2,
         .ok ⟨D', S, !(A + n + (if T.isEmpty then 0 else T.length) = 0), A, n,
           if T.isEmpty then 0 else T.length⟩) := by
  simp only [phasedRun, Bool.false_eq_true, if_false, eq_self_iff_true, if_true, hu,
    deleteLoop_check, List.nil_append, List.append_nil, List.singleton_append]

/-- Non-check `phasedRun` evaluation from the three phase results. -/
theorem phasedRun_nc_eval (A : Nat) (D' : List Dict)
    {m : Call → Bool} {T oArgs both : List Dict}
    {S S1 S2 S3 : Remote} {tr1 tr2 tr3 : List Call} {n : Nat} {g1 g2 : Bool}
    (h1 : (if g1 then createLoop m oArgs S else ([], .ok S)) = (tr1, .ok S1))
    (h2 : (if g2 then updateLoop false m both S1 else ([], .ok (S1, 0)))
      = (tr2, .ok (S2, n)))
    (h3 : deleteLoop false m T S2 = (tr3, .ok S3)) :
    phasedRun false m g1 A g2 T D' oArgs both S
      = (Call.listAll :: tr1 ++ tr2 ++ tr3,
         .ok ⟨D', S3, !(A + n + (if T.isEmpty then 0 else T.length) = 0), A, n,
           if T.isEmpty then 0 else T.length⟩) := by
  simp only [phasedRun, h1, h2, h3]

/-- Dry-run agreement at the `phasedRun` level: given string keys everywhere a
URL is built and a remote accepting every call, the check-mode run (whose
create guard is off) reports the same counters as the non-check run, issues no
mutating call and leaves the remote untouched. -/
theorem phasedRun_dryrun_agree (m : Call → Bool) (hm : ∀ c, m c = false)
    (gc g2 : Bool) (A : Nat) (T D' oArgs both : List Dict) (S : Remote)
    (hoArgsKeys : ∀ r ∈ oArgs, ∃ k, urlKey r = .ok k)
    (hTkeys : ∀ r ∈ T, ∃ k, urlKey r = .ok k)
    (hboth : ∀ r ∈ both, ∃ k c, urlKey r = .ok k ∧ readOne (S ++ oArgs) k = some c ∧
      readOne S k = some c)
    (hbothNodup : (both.map normKey).Nodup) :
    countsView (phasedRun true m false A g2 T D' oArgs both S)
      = countsView (phasedRun false m gc A g2 T D' oArgs both S) ∧
    (∀ c ∈ (phasedRun true m false A g2 T D' oArgs both S).1, c.isMut = false) ∧
    (∀ res, (phasedRun true m false A g2 T D' oArgs both S).2 = .ok res →
      res.remote = S) := by
  cases gc with
  | false =>
    have h1N : (if false then createLoop m oArgs S else ([], .ok S)) = ([], .ok S) := rfl
    have hbS : ∀ r ∈ both, ∃ k c, urlKey r = .ok k ∧ readOne S k = some c ∧
        readOne S k = some c := by
      intro r hr
      obtain ⟨k, c, hk1, _, hk3⟩ := hboth r hr
      exact ⟨k, c, hk1, hk3, hk3⟩
    cases g2 with
    | false =>
      obtain ⟨tr3, S3, hd3⟩ := deleteLoop_ok_exists m hm T S hTkeys
      have h2N : (if false then updateLoop false m both S else ([], .ok (S, 0)))
          = ([], .ok (S, 0)) := rfl
      have hN := phasedRun_nc_eval A D' h1N h2N hd3
      have hC := phasedRun_check_noupdate m A T D' oArgs both S
      rw [hC, hN]
      refine ⟨rfl, ?_, ?_⟩
      · intro c hc
        have := List.mem_singleton.mp hc
        subst this
        rfl
      · intro res hres
        cases Except.ok.inj hres
        rfl
    | true =>
      obtain ⟨n, S2, hu_nc, hu_c⟩ := updateLoop_agree m hm both S S hbS hbothNodup
      rcases huN : updateLoop false m both S with ⟨tr2n, r2n⟩
      rw [huN] at hu_nc
      have hr2n : r2n = .ok (S2, n) := hu_nc
      subst hr2n
      rcases huC : updateLoop true m both S with ⟨tr2c, r2c⟩
      rw [huC] at hu_c
      have hr2c : r2c = .ok (S, n) := hu_c
      subst hr2c
      obtain ⟨tr3, S3, hd3⟩ := deleteLoop_ok_exists m hm T S2 hTkeys
      have h2N : (if true then updateLoop false m both S else ([], .ok (S, 0)))
          = (tr2n, .ok (S2, n)) := by rw [if_pos rfl, huN]
      have hN := phasedRun_nc_eval A D' h1N h2N hd3
      have hC := phasedRun_check_of_update A T D' oArgs huC
      rw [hC, hN]
      refine ⟨rfl, ?_, ?_⟩
      · intro c hc
        rcases List.mem_cons.mp hc with h | h
        · subst h
          rfl
        · have hp := (updateLoop_check_pure m both S).1
          rw [huC] at hp
          exact hp c h
      · intro res hres
        cases Except.ok.inj hres
        rfl
  | true =>
    obtain ⟨tr1, htr1, _⟩ := createLoop_eval m hm oArgs S hoArgsKeys
    have h1N : (if true then createLoop m oArgs S else ([], .ok S))
        = (tr1, .ok (S ++ oArgs)) := by rw [if_pos rfl, htr1]
    cases g2 with
    | false =>
      obtain ⟨tr3, S3, hd3⟩ := deleteLoop_ok_exists m hm T (S ++ oArgs) hTkeys
      have h2N : (if false then updateLoop false m both (S ++ oArgs)
          else ([], .ok (S ++ oArgs, 0))) = ([], .ok (S ++ oArgs, 0)) := rfl
      have hN := phasedRun_nc_eval A D' h1N h2N hd3
      have hC := phasedRun_check_noupdate m A T D' oArgs both S
      rw [hC, hN]
      refine ⟨rfl, ?_, ?_⟩
      · intro c hc
        have := List.mem_singleton.mp hc
        subst this
        rfl
      · intro res hres
        cases Except.ok.inj hres
        rfl
    | true =>
      obtain ⟨n, S2, hu_nc, hu_c⟩ := updateLoop_agree m hm both (S ++ oArgs) S hboth hbothNodup
      rcases huN : updateLoop false m both (S ++ oArgs) with ⟨tr2n, r2n⟩
      rw [huN] at hu_nc
      have hr2n : r2n = .ok (S2, n) := hu_nc
      subst hr2n
      rcases huC : updateLoop true m both S with ⟨tr2c, r2c⟩
      rw [huC] at hu_c
      have hr2c : r2c = .ok (S, n) := hu_c
      subst hr2c
      obtain ⟨tr3, S3, hd3⟩ := deleteLoop_ok_exists m hm T S2 hTkeys
      have h2N : (if true then updateLoop false m both (S ++ oArgs)
          else ([], .ok (S ++ oArgs, 0))) = (tr2n, .ok (S2, n)) := by
        rw [if_pos rfl, huN]
      have hN := phasedRun_nc_eval A D' h1N h2N hd3
      have hC := phasedRun_check_of_update A T D' oArgs huC
      rw [hC, hN]
      refine ⟨rfl, ?_, ?_⟩
      · intro c hc
        rcases List.mem_cons.mp hc with h | h
        · subst h
          rfl
        · have hp := (updateLoop_check_pure m both S).1
          rw [huC] at hp
          exact hp c h
      · intro res hres
        cases Except.ok.inj hres
        rfl

/-- Dry-run agreement at the `runPhases` level, for each of the three valid
target states. -/
theorem runPhases_dryrun_agree (st : String) (m : Call → Bool) (hm : ∀ c, m c = false)
    (hst : st = "absent" ∨ st = "present" ∨ st = "prune")
    (D' oArgs both oArt : List Dict) (S : Remote)
    (hoArgsKeys : ∀ r ∈ oArgs, ∃ k, urlKey r = .ok k)
    (hArtKeys : ∀ r ∈ oArt, ∃ k, urlKey r = .ok k)
    (hboth : ∀ r ∈ both, ∃ k c, urlKey r = .ok k ∧ readOne (S ++ oArgs) k = some c ∧
      readOne S k = some c)
    (hbothNodup : (both.map normKey).Nodup) :
    countsView (runPhases st true m D' oArgs both oArt S)
      = countsView (runPhases st false m D' oArgs both oArt S) ∧
    (∀ c ∈ (runPhases st true m D' oArgs both oArt S).1, c.isMut = false) ∧
    (∀ res, (runPhases st true m D' oArgs both oArt S).2 = .ok res →
      res.remote = S) := by
  have hbothKeys : ∀ r ∈ both, ∃ k, urlKey r = .ok k := by
    intro r hr
    obtain ⟨k, c, hk1, _, _⟩ := hboth r hr
    exact ⟨k, hk1⟩
  rcases hst with hst | hst | hst <;> subst hst
  · have hT : ∀ r ∈ (if (!both.isEmpty) = true then both else []),
        ∃ k, urlKey r = .ok k := by
      split
      · exact hbothKeys
      · intro r hr
        exact absurd hr (List.not_mem_nil r)
    simp only [runPhases_eq_phased,
      show (decide (("absent" : String) = "present")
        || decide (("absent" : String) = "prune")) = false from by decide,
      show decide (("absent" : String) = "absent") = true from by decide,
      show decide (("absent" : String) = "prune") = false from by decide,
      Bool.false_and, Bool.false_eq_true, if_false, Bool.true_and]
    exact phasedRun_dryrun_agree m hm false false 0 _ D' oArgs both S
      hoArgsKeys hT hboth hbothNodup
  · simp only [runPhases_eq_phased,
      show (decide (("present" : String) = "present")
        || decide (("present" : String) = "prune")) = true from by decide,
      show decide (("present" : String) = "absent") = false from by decide,
      show decide (("present" : String) = "prune") = false from by decide,
      Bool.true_and, Bool.false_and, Bool.false_eq_true, if_false,
      Bool.not_true, Bool.and_false, Bool.not_false, Bool.and_true]
    exact phasedRun_dryrun_agree m hm (!oArgs.isEmpty) (!both.isEmpty)
      (if (!oArgs.isEmpty) = true then oArgs.length else 0) [] D' oArgs both S
      hoArgsKeys (by intro r hr; exact absurd hr (List.not_mem_nil r)) hboth hbothNodup
  · have hT : ∀ r ∈ (if (!oArt.isEmpty) = true then oArt else []),
        ∃ k, urlKey r = .ok k := by
      split
      · exact hArtKeys
      · intro r hr
        exact absurd hr (List.not_mem_nil r)
    simp only [runPhases_eq_phased,
      show (decide (("prune" : String) = "present")
        || decide (("prune" : String) = "prune")) = true from by decide,
      show decide (("prune" : String) = "absent") = false from by decide,
      show decide (("prune" : String) = "prune") = true from by decide,
      Bool.true_and, Bool.false_and, Bool.false_eq_true, if_false,
      Bool.not_true, Bool.and_false, Bool.not_false, Bool.and_true]
    exact phasedRun_dryrun_agree m hm (!oArgs.isEmpty) (!both.isEmpty)
      (if (!oArgs.isEmpty) = true then oArgs.length else 0) _ D' oArgs both S
      hoArgsKeys hT hboth hbothNodup

/-- C3 (amended): when every desired and every stored record carries a string
`"key"` value and the remote accepts every call, a check (dry-run) mode run
returns exactly the same outcome view — error, or changed flag with
added/updated/deleted counts — as the non-check run, while issuing no
create/update/delete call and leaving the remote state untouched. -/
theorem c3_amended_dryrun_purity (state : String) (m : Call → Bool)
    (hm : ∀ c, m c = false) (D : List Dict) (S : Remote)
    (hD : ∀ r ∈ D, ∃ s, dictGet r "key" = some (.str s))
    (hS : ∀ e ∈ S, ∃ s, dictGet e "key" = some (.str s)) :
    countsView (runRepo state true m D S) = countsView (runRepo state false m D S) ∧
    (∀ c ∈ (runRepo state true m D S).1, c.isMut = false) ∧
    (∀ res, (runRepo state true m D S).2 = .ok res → res.remote = S) := by
  cases hv : validateArgs D state with
  | error e =>
    simp only [runRepo_validateErr hv]
    refine ⟨trivial, ?_, ?_⟩
    · intro c hc
      exact absurd hc (List.not_mem_nil c)
    · intro res hres
      exact Except.noConfusion hres
  | ok st =>
    cases hs : sortRepos D S with
    | error e =>
      simp only [runRepo_sortErr hv hs]
      refine ⟨trivial, ?_, ?_⟩
      · intro c hc
        have := List.mem_singleton.mp hc
        subst this
        rfl
      · intro res hres
        exact Except.noConfusion hres
    | ok quad =>
      obtain ⟨D', oArgs, both, oArt⟩ := quad
      simp only [runRepo_eval hv hs]
      obtain ⟨⟨u1, hreq⟩, ⟨u2, hdup⟩, hstok⟩ := validateArgs_ok hv
      have hstates := (checkState_ok hstok).2
      have hDnodup := dupCheck_nodup hdup
      have hs' : sortLoop D S [] D [] S = .ok (D', oArgs, both, oArt) := hs
      have hA : ∀ it ∈ S, (dictGet it "key").isSome := by
        intro it hit
        obtain ⟨s, hsx⟩ := hS it hit
        simp [hsx]
      have hDkeys : ∀ r ∈ D, (dictGet r "key").isSome := by
        intro r hr
        obtain ⟨s, hsx⟩ := hD r hr
        simp [hsx]
      have hbothNodup : (both.map normKey).Nodup :=
        sortLoop_both_nodup hA hs' hDkeys (by simpa using hDnodup)
          (fun r _ => countP_le_one_of_nodup hDnodup)
      have hoArgsKeys : ∀ r ∈ oArgs, ∃ k, urlKey r = .ok k := by
        intro r hr
        obtain ⟨s, hsx⟩ := hD r (sortLoop_oArgs_sub hs' r hr)
        exact ⟨s, urlKey_ok_iff.mpr hsx⟩
      have hArtKeys : ∀ r ∈ oArt, ∃ k, urlKey r = .ok k := by
        intro e he
        obtain ⟨s, hsx⟩ := hS e (sortLoop_oArt_sub hs' e he)
        exact ⟨s, urlKey_ok_iff.mpr hsx⟩
      have hboth : ∀ b ∈ both, ∃ k c, urlKey b = .ok k ∧
          readOne (S ++ oArgs) k = some c ∧ readOne S k = some c := by
        intro b hb
        rcases sortLoop_both_mem hs' b hb with hb0 | ⟨⟨it, hit, hkeq⟩, _⟩
        · exact absurd hb0 (List.not_mem_nil b)
        · obtain ⟨s, hsx⟩ := hS it hit
          have hbk : dictGet b "key" = some (.str s) := by rw [hkeq, hsx]
          obtain ⟨c, hc⟩ := Option.isSome_iff_exists.mp (readOne_isSome_of_mem hit hsx)
          exact ⟨s, c, urlKey_ok_iff.mpr hbk, readOne_append_left hc, hc⟩
      exact runPhases_dryrun_agree st m hm hstates D' oArgs both oArt S
        hoArgsKeys hArtKeys hboth hbothNodup

/-- C3 witness: on a concrete Present run with one repository to create and one
stored repository to keep, the dry run matches the real run's counts, issues
no mutating call and leaves the remote as it was. -/
theorem c3_amended_dryrun_purity_witness :
    (∀ c, noFail c = false) ∧
    (∀ r ∈ ([[("key", Value.str "a"), ("rclass", Value.str "local"),
        ("packageType", Value.str "maven")]] : List Dict),
      ∃ s, dictGet r "key" = some (.str s)) ∧
    (∀ e ∈ ([[("key", Value.str "B"), ("rclass", Value.str "local")]] : Remote),
      ∃ s, dictGet e "key" = some (.str s)) ∧
    (countsView (runRepo "Present" true noFail
        [[("key", Value.str "a"), ("rclass", Value.str "local"),
          ("packageType", Value.str "maven")]]
        [[("key", Value.str "B"), ("rclass", Value.str "local")]])
      = countsView (runRepo "Present" false noFail
        [[("key", Value.str "a"), ("rclass", Value.str "local"),
          ("packageType", Value.str "maven")]]
        [[("key", Value.str "B"), ("rclass", Value.str "local")]]) ∧
     (∀ c ∈ (runRepo "Present" true noFail
        [[("key", Value.str "a"), ("rclass", Value.str "local"),
          ("packageType", Value.str "maven")]]
        [[("key", Value.str "B"), ("rclass", Value.str "local")]]).1, c.isMut = false) ∧
     (∀ res, (runRepo "Present" true noFail
        [[("key", Value.str "a"), ("rclass", Value.str "local"),
          ("packageType", Value.str "maven")]]
        [[("key", Value.str "B"), ("rclass", Value.str "local")]]).2 = .ok res →
        res.remote = [[("key", Value.str "B"), ("rclass", Value.str "local")]])) :=
  ⟨fun _ => rfl,
   by
     intro r hr
     have := List.mem_singleton.mp hr
     subst this
     exact ⟨"a", rfl⟩,
   by
     intro e he
     have := List.mem_singleton.mp he
     subst this
     exact ⟨"B", rfl⟩,
   c3_amended_dryrun_purity "Present" noFail (fun _ => rfl)
     [[("key", Value.str "a"), ("rclass", Value.str "local"),
       ("packageType", Value.str "maven")]]
     [[("key", Value.str "B"), ("rclass", Value.str "local")]]
     (by
       intro r hr
       have := List.mem_singleton.mp hr
       subst this
       exact ⟨"a", rfl⟩)
     (by
       intro e he
       have := List.mem_singleton.mp he
       subst this
       exact ⟨"B", rfl⟩)⟩


/-! Lemmas supporting the Present idempotence argument. -/

theorem dictEqv_symm {d e : Dict} (h : dictEqv d e = true) : dictEqv e d = true :=
  dictEqv_iff.mpr (fun k => (dictEqv_iff.mp h k).symm)

/-- The inner partition loop preserves the no-duplicate-keys invariant of the
desired record. -/
theorem sortInner_wf {A : List Dict} {repo repo' : Dict}
    {oArgs both oArt oArgsF bothF oArtF : List Dict}
    (h : sortInner A repo oArgs both oArt = .ok (repo', oArgsF, bothF, oArtF)) :
    WfKeys repo → WfKeys repo' := by
  induction A generalizing repo oArgs both oArt with
  | nil =>
    intro hw
    simp only [sortInner, Except.ok.injEq, Prod.mk.injEq] at h
    rw [← h.1]
    exact hw
  | cons it rest ih =>
    intro hw
    unfold sortInner at h
    cases hiv : dictGet it "key" with
    | none => rw [hiv] at h; exact absurd h (by simp)
    | some iv =>
      rw [hiv] at h
      cases hrv : dictGet repo "key" with
      | none => rw [hrv] at h; exact absurd h (by simp)
      | some rv =>
        rw [hrv] at h
        dsimp only at h
        by_cases hcond : strLower (pyStr iv) = strLower (pyStr rv)
        · rw [if_pos hcond] at h
          cases hrem : listRemove oArgs repo with
          | error e => rw [hrem] at h; exact absurd h (by simp)
          | ok oArgs1 =>
            rw [hrem] at h
            cases hrem2 : listRemove oArt (dictSet repo "key" iv) with
            | error e => rw [hrem2] at h; exact absurd h (by simp)
            | ok oArt1 =>
              rw [hrem2] at h
              dsimp only at h
              exact ih h (wfKeys_dictSet "key" iv hw)
        · rw [if_neg hcond] at h
          exact ih h hw

/-- Every `inBoth` record produced by the inner loop keeps the
no-duplicate-keys invariant. -/
theorem sortInner_both_wf {A : List Dict} {repo repo' : Dict}
    {oArgs both oArt oArgsF bothF oArtF : List Dict}
    (h : sortInner A repo oArgs both oArt = .ok (repo', oArgsF, bothF, oArtF)) :
    WfKeys repo → (∀ b ∈ both, WfKeys b) → ∀ b ∈ bothF, WfKeys b := by
  induction A generalizing repo oArgs both oArt with
  | nil =>
    intro _ hboth
    simp only [sortInner, Except.ok.injEq, Prod.mk.injEq] at h
    rw [← h.2.2.1]
    exact hboth
  | cons it rest ih =>
    intro hw hboth
    unfold sortInner at h
    cases hiv : dictGet it "key" with
    | none => rw [hiv] at h; exact absurd h (by simp)
    | some iv =>
      rw [hiv] at h
      cases hrv : dictGet repo "key" with
      | none => rw [hrv] at h; exact absurd h (by simp)
      | some rv =>
        rw [hrv] at h
        dsimp only at h
        by_cases hcond : strLower (pyStr iv) = strLower (pyStr rv)
        · rw [if_pos hcond] at h
          cases hrem : listRemove oArgs repo with
          | error e => rw [hrem] at h; exact absurd h (by simp)
          | ok oArgs1 =>
            rw [hrem] at h
            cases hrem2 : listRemove oArt (dictSet repo "key" iv) with
            | error e => rw [hrem2] at h; exact absurd h (by simp)
            | ok oArt1 =>
              rw [hrem2] at h
              dsimp only at h
              refine ih h (wfKeys_dictSet "key" iv hw) ?_
              intro b hb
              rcases List.mem_append.mp hb with hb | hb
              · exact hboth b hb
              · rw [List.mem_singleton.mp hb]
                exact wfKeys_dictSet "key" iv hw
        · rw [if_neg hcond] at h
          exact ih h hw hboth

/-- The outer partition loop preserves the no-duplicate-keys invariant into
`inBoth`. -/
theorem sortLoop_both_wf {A : List Dict} :
    ∀ {D dAcc oArgs both oArt D' oArgsF bothF oArtF : List Dict},
    sortLoop D A dAcc oArgs both oArt = .ok (D', oArgsF, bothF, oArtF) →
    (∀ r ∈ D, WfKeys r) → (∀ b ∈ both, WfKeys b) → ∀ b ∈ bothF, WfKeys b := by
  intro D
  induction D with
  | nil =>
    intro dAcc oArgs both oArt D' oArgsF bothF oArtF h _ hboth
    simp only [sortLoop, Except.ok.injEq, Prod.mk.injEq] at h
    rw [← h.2.2.1]
    exact hboth
  | cons repo rest ih =>
    intro dAcc oArgs both oArt D' oArgsF bothF oArtF h hD hboth
    unfold sortLoop at h
    cases hs : sortInner A repo oArgs both oArt with
    | error e => rw [hs] at h; exact absurd h (by simp)
    | ok out =>
      obtain ⟨repo1, oArgs1, both1, oArt1⟩ := out
      rw [hs] at h
      dsimp only at h
      exact ih h (fun r hr => hD r (by simp [hr]))
        (sortInner_both_wf hs (hD repo (by simp)) hboth)

/-- The inner loop only removes entries from `onlyInArgs`. -/
theorem sortInner_oArgs_sublist {A : List Dict} {repo repo' : Dict}
    {oArgs both oArt oArgsF bothF oArtF : List Dict}
    (h : sortInner A repo oArgs both oArt = .ok (repo', oArgsF, bothF, oArtF)) :
    oArgsF.Sublist oArgs := by
  induction A generalizing repo oArgs both oArt with
  | nil =>
    simp only [sortInner, Except.ok.injEq, Prod.mk.injEq] at h
    rw [← h.2.1]
  | cons it rest ih =>
    unfold sortInner at h
    cases hiv : dictGet it "key" with
    | none => rw [hiv] at h; exact absurd h (by simp)
    | some iv =>
      rw [hiv] at h
      cases hrv : dictGet repo "key" with
      | none => rw [hrv] at h; exact absurd h (by simp)
      | some rv =>
        rw [hrv] at h
        dsimp only at h
        by_cases hcond : strLower (pyStr iv) = strLower (pyStr rv)
        · rw [if_pos hcond] at h
          cases hrem : listRemove oArgs repo with
          | error e => rw [hrem] at h; exact absurd h (by simp)
          | ok oArgs1 =>
            rw [hrem] at h
            cases hrem2 : listRemove oArt (dictSet repo "key" iv) with
            | error e => rw [hrem2] at h; exact absurd h (by simp)
            | ok oArt1 =>
              rw [hrem2] at h
              dsimp only at h
              exact (ih h).trans (listRemove_sublist hrem)
        · rw [if_neg hcond] at h
          exact ih h

/-- The outer loop only removes entries from `onlyInArgs`. -/
theorem sortLoop_oArgs_sublist {A : List Dict} :
    ∀ {D dAcc oArgs both oArt D' oArgsF bothF oArtF : List Dict},
    sortLoop D A dAcc oArgs both oArt = .ok (D', oArgsF, bothF, oArtF) →
    oArgsF.Sublist oArgs := by
  intro D
  induction D with
  | nil =>
    intro dAcc oArgs both oArt D' oArgsF bothF oArtF h
    simp only [sortLoop, Except.ok.injEq, Prod.mk.injEq] at h
    rw [← h.2.1]
  | cons repo rest ih =>
    intro dAcc oArgs both oArt D' oArgsF bothF oArtF h
    unfold sortLoop at h
    cases hs : sortInner A repo oArgs both oArt with
    | error e => rw [hs] at h; exact absurd h (by simp)
    | ok out =>
      obtain ⟨repo1, oArgs1, both1, oArt1⟩ := out
      rw [hs] at h
      dsimp only at h
      exact (ih h).trans (sortInner_oArgs_sublist hs)

/-- A record whose normalized key matches no listing item survives the inner
loop's `onlyInArgs` removals. -/
theorem sortInner_oArgs_retained {A : List Dict} {repo repo' r : Dict}
    {oArgs both oArt oArgsF bothF oArtF : List Dict}
    (h : sortInner A repo oArgs both oArt = .ok (repo', oArgsF, bothF, oArtF))
    (hr : r ∈ oArgs) (hun : ∀ it ∈ A, normKey it ≠ normKey r) :
    r ∈ oArgsF := by
  induction A generalizing repo oArgs both oArt with
  | nil =>
    simp only [sortInner, Except.ok.injEq, Prod.mk.injEq] at h
    rw [← h.2.1]
    exact hr
  | cons it rest ih =>
    unfold sortInner at h
    cases hiv : dictGet it "key" with
    | none => rw [hiv] at h; exact absurd h (by simp)
    | some iv =>
      rw [hiv] at h
      cases hrv : dictGet repo "key" with
      | none => rw [hrv] at h; exact absurd h (by simp)
      | some rv =>
        rw [hrv] at h
        dsimp only at h
        by_cases hcond : strLower (pyStr iv) = strLower (pyStr rv)
        · rw [if_pos hcond] at h
          cases hrem : listRemove oArgs repo with
          | error e => rw [hrem] at h; exact absurd h (by simp)
          | ok oArgs1 =>
            rw [hrem] at h
            cases hrem2 : listRemove oArt (dictSet repo "key" iv) with
            | error e => rw [hrem2] at h; exact absurd h (by simp)
            | ok oArt1 =>
              rw [hrem2] at h
              dsimp only at h
              have hne : dictEqv r repo = false := by
                cases hev : dictEqv r repo
                · rfl
                · exfalso
                  apply hun it (by simp)
                  have h1 : normKey it = normKey repo := by
                    rw [normKey_get hiv, normKey_get hrv]
                    exact hcond
                  rw [h1, ← normKey_of_eqv hev]
              exact ih h (listRemove_mem_preserved hrem hr hne)
                (fun it2 h2 => hun it2 (by simp [h2]))
        · rw [if_neg hcond] at h
          exact ih h hr (fun it2 h2 => hun it2 (by simp [h2]))

/-- A desired record whose normalized key matches no listing item ends up in
the final `onlyInArgs` group. -/
theorem sortLoop_oArgs_retained {A : List Dict} {r : Dict} :
    ∀ {D dAcc oArgs both oArt D' oArgsF bothF oArtF : List Dict},
    sortLoop D A dAcc oArgs both oArt = .ok (D', oArgsF, bothF, oArtF) →
    r ∈ oArgs → (∀ it ∈ A, normKey it ≠ normKey r) → r ∈ oArgsF := by
  intro D
  induction D with
  | nil =>
    intro dAcc oArgs both oArt D' oArgsF bothF oArtF h hr _
    simp only [sortLoop, Except.ok.injEq, Prod.mk.injEq] at h
    rw [← h.2.1]
    exact hr
  | cons repo rest ih =>
    intro dAcc oArgs both oArt D' oArgsF bothF oArtF h hr hun
    unfold sortLoop at h
    cases hs : sortInner A repo oArgs both oArt with
    | error e => rw [hs] at h; exact absurd h (by simp)
    | ok out =>
      obtain ⟨repo1, oArgs1, both1, oArt1⟩ := out
      rw [hs] at h
      dsimp only at h
      exact ih h (sortInner_oArgs_retained hs hr hun) hun

/-- The inner loop only appends to `inBoth`. -/
theorem sortInner_both_mono {A : List Dict} {repo repo' : Dict}
    {oArgs both oArt oArgsF bothF oArtF : List Dict}
    (h : sortInner A repo oArgs both oArt = .ok (repo', oArgsF, bothF, oArtF)) :
    ∀ b ∈ both, b ∈ bothF := by
  induction A generalizing repo oArgs both oArt with
  | nil =>
    simp only [sortInner, Except.ok.injEq, Prod.mk.injEq] at h
    rw [← h.2.2.1]
    exact fun b hb => hb
  | cons it rest ih =>
    unfold sortInner at h
    cases hiv : dictGet it "key" with
    | none => rw [hiv] at h; exact absurd h (by simp)
    | some iv =>
      rw [hiv] at h
      cases hrv : dictGet repo "key" with
      | none => rw [hrv] at h; exact absurd h (by simp)
      | some rv =>
        rw [hrv] at h
        dsimp only at h
        by_cases hcond : strLower (pyStr iv) = strLower (pyStr rv)
        · rw [if_pos hcond] at h
          cases hrem : listRemove oArgs repo with
          | error e => rw [hrem] at h; exact absurd h (by simp)
          | ok oArgs1 =>
            rw [hrem] at h
            cases hrem2 : listRemove oArt (dictSet repo "key" iv) with
            | error e => rw [hrem2] at h; exact absurd h (by simp)
            | ok oArt1 =>
              rw [hrem2] at h
              dsimp only at h
              exact fun b hb => ih h b (List.mem_append_left _ hb)
        · rw [if_neg hcond] at h
          exact ih h

/-- The outer loop only appends to `inBoth`. -/
theorem sortLoop_both_mono {A : List Dict} :
    ∀ {D dAcc oArgs both oArt D' oArgsF bothF oArtF : List Dict},
    sortLoop D A dAcc oArgs both oArt = .ok (D', oArgsF, bothF, oArtF) →
    ∀ b ∈ both, b ∈ bothF := by
  intro D
  induction D with
  | nil =>
    intro dAcc oArgs both oArt D' oArgsF bothF oArtF h
    simp only [sortLoop, Except.ok.injEq, Prod.mk.injEq] at h
    rw [← h.2.2.1]
    exact fun b hb => hb
  | cons repo rest ih =>
    intro dAcc oArgs both oArt D' oArgsF bothF oArtF h
    unfold sortLoop at h
    cases hs : sortInner A repo oArgs both oArt with
    | error e => rw [hs] at h; exact absurd h (by simp)
    | ok out =>
      obtain ⟨repo1, oArgs1, both1, oArt1⟩ := out
      rw [hs] at h
      dsimp only at h
      exact fun b hb => ih h b (sortInner_both_mono hs b hb)

/-- A desired record that survives into the final `onlyInArgs` group was never
matched: no listing item carries its normalized key. -/
theorem sortLoop_oArgs_unmatched {A : List Dict}
    (hA : ∀ it ∈ A, (dictGet it "key").isSome) :
    ∀ {D dAcc oArgs both oArt D' oArgsF bothF oArtF : List Dict},
    sortLoop D A dAcc oArgs both oArt = .ok (D', oArgsF, bothF, oArtF) →
    (∀ r ∈ D, (dictGet r "key").isSome) →
    (oArgs.map normKey).Nodup →
    (D.map normKey).Nodup →
    (∀ r ∈ D, r ∈ oArgs) →
    ∀ r ∈ oArgsF, r ∈ D → ∀ it ∈ A, normKey it ≠ normKey r := by
  intro D
  induction D with
  | nil =>
    intro dAcc oArgs both oArt D' oArgsF bothF oArtF _ _ _ _ _ r _ hrD
    exact absurd hrD (List.not_mem_nil r)
  | cons repo rest ih =>
    intro dAcc oArgs both oArt D' oArgsF bothF oArtF h hD hoNodup hDnodup hsub
    unfold sortLoop at h
    cases hs : sortInner A repo oArgs both oArt with
    | error e => rw [hs] at h; exact absurd h (by simp)
    | ok out =>
      obtain ⟨repo1, oArgs1, both1, oArt1⟩ := out
      rw [hs] at h
      dsimp only at h
      intro r hrF hrD
      rcases sortInner_char (hD repo (by simp)) hA (countP_le_one_of_nodup hoNodup) hs
        with hl | hmr
      · obtain ⟨h1, h2, h3, h4, h5⟩ := hl
        rcases List.mem_cons.mp hrD with hrD | hrD
        · subst hrD
          exact h5
        · subst h2
          refine ih h (fun r' h' => hD r' (by simp [h'])) hoNodup ?_
            (fun r' h' => hsub r' (by simp [h'])) r hrF hrD
          simp only [List.map_cons, List.nodup_cons] at hDnodup
          exact hDnodup.2
      · obtain ⟨it, hit, hitnorm, h1, h3, hrem, hrem2⟩ := hmr
        rcases List.mem_cons.mp hrD with hrD | hrD
        · subst hrD
          exfalso
          have hrO1 : r ∈ oArgs1 := sortLoop_oArgs_sub h r hrF
          obtain ⟨l1, e0, l2, hdec, hdec2, heqv0, hfirst⟩ := listRemove_ok hrem
          rw [hdec2] at hrO1
          rcases List.mem_append.mp hrO1 with hl1 | hl2
          · have hcontr := hfirst r hl1
            rw [dictEqv_refl r] at hcontr
            exact Bool.noConfusion hcontr
          · have hn0 : normKey e0 = normKey r := normKey_of_eqv heqv0
            rw [hdec] at hoNodup
            have hsub2 : ((e0 :: l2).map normKey).Nodup := by
              refine List.Nodup.sublist ?_ hoNodup
              exact List.Sublist.map normKey (List.sublist_append_right l1 (e0 :: l2))
            simp only [List.map_cons, List.nodup_cons] at hsub2
            exact hsub2.1 (hn0 ▸ List.mem_map.mpr ⟨r, hl2, rfl⟩)
        · have hoNodup1 : (oArgs1.map normKey).Nodup :=
            hoNodup.sublist ((listRemove_sublist hrem).map normKey)
          have hsub1 : ∀ r' ∈ rest, r' ∈ oArgs1 := by
            intro r' h'
            refine listRemove_mem_preserved hrem (hsub r' (by simp [h'])) ?_
            cases hev : dictEqv r' repo
            · rfl
            · exfalso
              have h2 : normKey r' = normKey repo := normKey_of_eqv hev
              simp only [List.map_cons, List.nodup_cons] at hDnodup
              exact hDnodup.1 (h2 ▸ List.mem_map.mpr ⟨r', h', rfl⟩)
          refine ih h (fun r' h' => hD r' (by simp [h'])) hoNodup1 ?_ hsub1 r hrF hrD
          simp only [List.map_cons, List.nodup_cons] at hDnodup
          exact hDnodup.2

/-- A desired record that is matched by some listing item yields exactly its
key-overwritten copy in the final `inBoth` group. -/
theorem sortLoop_matched_char {A : List Dict}
    (hA : ∀ it ∈ A, (dictGet it "key").isSome) :
    ∀ {D dAcc oArgs both oArt D' oArgsF bothF oArtF : List Dict},
    sortLoop D A dAcc oArgs both oArt = .ok (D', oArgsF, bothF, oArtF) →
    (∀ r ∈ D, (dictGet r "key").isSome) →
    (∀ r ∈ D, oArgs.countP (fun e => normKey e == normKey r) ≤ 1) →
    ∀ r ∈ D, (∃ it ∈ A, normKey it = normKey r) →
    ∃ it ∈ A, normKey it = normKey r ∧
      dictSet r "key" ((dictGet it "key").getD .null) ∈ bothF := by
  intro D
  induction D with
  | nil =>
    intro dAcc oArgs both oArt D' oArgsF bothF oArtF _ _ _ r hr
    exact absurd hr (List.not_mem_nil r)
  | cons repo rest ih =>
    intro dAcc oArgs both oArt D' oArgsF bothF oArtF h hD hone r hr hex
    unfold sortLoop at h
    cases hs : sortInner A repo oArgs both oArt with
    | error e => rw [hs] at h; exact absurd h (by simp)
    | ok out =>
      obtain ⟨repo1, oArgs1, both1, oArt1⟩ := out
      rw [hs] at h
      dsimp only at h
      rcases List.mem_cons.mp hr with hr0 | hr0
      · subst hr0
        rcases sortInner_char (hD r (by simp)) hA (hone r (by simp)) hs with hl | hmr
        · obtain ⟨_, _, _, _, h5⟩ := hl
          obtain ⟨it, hit, hitn⟩ := hex
          exact absurd hitn (h5 it hit)
        · obtain ⟨it, hit, hitnorm, h1, h3, hrem, hrem2⟩ := hmr
          refine ⟨it, hit, hitnorm, ?_⟩
          rw [← h1]
          refine sortLoop_both_mono h repo1 ?_
          rw [h3]
          exact List.mem_append_right _ (by simp)
      · refine ih h (fun r' h' => hD r' (by simp [h'])) ?_ r hr0 hex
        intro r' h'
        calc oArgs1.countP (fun e => normKey e == normKey r')
            ≤ oArgs.countP (fun e => normKey e == normKey r') :=
              List.Sublist.countP_le _ (sortInner_oArgs_sublist hs)
          _ ≤ 1 := hone r' (by simp [h'])

/-- Forward success of the partition: when every desired record has a stored
witness that equals its key-overwritten copy, the partition succeeds and the
`onlyInArgs` group comes out empty. -/
theorem sortLoop_success {A : List Dict} (hAkeys : ∀ it ∈ A, (dictGet it "key").isSome)
    (hAnodup : (A.map normKey).Nodup) :
    ∀ (D dAcc both oArt : List Dict),
    (∀ r ∈ D, (dictGet r "key").isSome) →
    (D.map normKey).Nodup →
    (∀ e ∈ oArt, e ∈ A) →
    (∀ r ∈ D, ∃ e ∈ oArt, normKey e = normKey r ∧
      dictEqv e (dictSet r "key" ((dictGet e "key").getD .null)) = true) →
    ∃ D' bothF oArtF, sortLoop D A dAcc D both oArt = .ok (D', [], bothF, oArtF) := by
  intro D
  induction D with
  | nil =>
    intro dAcc both oArt _ _ _ _
    exact ⟨dAcc, both, oArt, rfl⟩
  | cons repo rest ih =>
    intro dAcc both oArt hD hDnodup hsub hmatch
    obtain ⟨e, heOart, henorm, heqv⟩ := hmatch repo (by simp)
    have heA : e ∈ A := hsub e heOart
    have hfind : A.find? (fun it => normKey it == normKey repo) = some e := by
      have hps : (A.find? (fun it => normKey it == normKey repo)).isSome := by
        rw [List.find?_isSome]
        exact ⟨e, heA, by simp [henorm]⟩
      obtain ⟨item, hitem⟩ := Option.isSome_iff_exists.mp hps
      have hmem := List.mem_of_find?_eq_some hitem
      have hp := List.find?_some hitem
      simp only [beq_iff_eq] at hp
      rw [hitem]
      congr 1
      exact mem_unique_of_nodup_map hAnodup hmem heA (by rw [hp, henorm])
    have hinner := sortInner_eval (repo :: rest) both oArt (hD repo (by simp)) hAkeys hAnodup
    rw [hfind] at hinner
    dsimp only at hinner
    have hremArgs : listRemove (repo :: rest) repo = .ok rest := by
      simp [listRemove, dictEqv_refl repo]
    rw [hremArgs] at hinner
    dsimp only at hinner
    obtain ⟨oArt1, hremArt⟩ := listRemove_ok_of_mem heOart heqv
    rw [hremArt] at hinner
    dsimp only at hinner
    have hsub1 : ∀ x ∈ oArt1, x ∈ A := fun x hx => hsub x (listRemove_subset hremArt x hx)
    have hDnodup1 : (rest.map normKey).Nodup := by
      simp only [List.map_cons, List.nodup_cons] at hDnodup
      exact hDnodup.2
    have hmatch1 : ∀ r ∈ rest, ∃ e2 ∈ oArt1, normKey e2 = normKey r ∧
        dictEqv e2 (dictSet r "key" ((dictGet e2 "key").getD .null)) = true := by
      intro r hrr
      obtain ⟨e2, he2, hn2, hq2⟩ := hmatch r (by simp [hrr])
      refine ⟨e2, ?_, hn2, hq2⟩
      refine listRemove_mem_preserved hremArt he2 ?_
      cases hev : dictEqv e2 (dictSet repo "key" ((dictGet e "key").getD .null))
      · rfl
      · exfalso
        have h2 := normKey_of_eqv hev
        rw [normKey_dictSet_getD] at h2
        simp only [List.map_cons, List.nodup_cons] at hDnodup
        apply hDnodup.1
        have h3 : normKey r = normKey repo := by rw [← hn2, h2, henorm]
        exact h3 ▸ List.mem_map.mpr ⟨r, hrr, rfl⟩
    obtain ⟨D', bothF, oArtF, hrec⟩ :=
      ih (dAcc ++ [dictSet repo "key" ((dictGet e "key").getD .null)])
        (both ++ [dictSet repo "key" ((dictGet e "key").getD .null)]) oArt1
        (fun r h' => hD r (by simp [h'])) hDnodup1 hsub1 hmatch1
    refine ⟨D', bothF, oArtF, ?_⟩
    unfold sortLoop
    rw [hinner]
    dsimp only
    exact hrec

/-- Result-only evaluation of a non-check `phasedRun` from the three phase
results. -/
theorem phasedRun_res (A : Nat) (D' : List Dict)
    {m : Call → Bool} {T oArgs both : List Dict}
    {S S1 S2 S3 : Remote} {n : Nat} {g1 g2 : Bool}
    (h1 : (if g1 then createLoop m oArgs S else ([], .ok S)).2 = .ok S1)
    (h2 : (if g2 then updateLoop false m both S1 else ([], .ok (S1, 0))).2
      = .ok (S2, n))
    (h3 : (deleteLoop false m T S2).2 = .ok S3) :
    (phasedRun false m g1 A g2 T D' oArgs both S).2
      = .ok ⟨D', S3, !(A + n + (if T.isEmpty then 0 else T.length) = 0), A, n,
          if T.isEmpty then 0 else T.length⟩ := by
  rcases hx1 : (if g1 then createLoop m oArgs S else ([], .ok S)) with ⟨t1, r1⟩
  rw [hx1] at h1
  have hr1 : r1 = .ok S1 := h1
  subst hr1
  rcases hx2 : (if g2 then updateLoop false m both S1 else ([], .ok (S1, 0))) with ⟨t2, r2⟩
  rw [hx2] at h2
  have hr2 : r2 = .ok (S2, n) := h2
  subst hr2
  rcases hx3 : deleteLoop false m T S2 with ⟨t3, r3⟩
  rw [hx3] at h3
  have hr3 : r3 = .ok S3 := h3
  subst hr3
  simp only [phasedRun, hx1, hx2, hx3]


/-- C8: Present is idempotent.  With string keys on both sides, duplicate-free
stored keys, desired records obeying the Python dict invariant, and a remote
accepting every call, whenever a non-check Present run completes, running
Present again with the same desired input against the remote state left by the
first run completes and reports `changed=false`. -/
theorem c8_present_idempotent (state : String) (m : Call → Bool) (hm : ∀ c, m c = false)
    (hstate : strLower state = "present") (D : List Dict) (S : Remote)
    (hWf : ∀ r ∈ D, WfKeys r)
    (hD : ∀ r ∈ D, ∃ s, dictGet r "key" = some (.str s))
    (hS : ∀ e ∈ S, ∃ s, dictGet e "key" = some (.str s))
    (hSnodup : (S.map normKey).Nodup)
    (tr1 : List Call) (res1 : RunResult)
    (h1 : runRepo state false m D S = (tr1, .ok res1)) :
    ∃ tr2 res2, runRepo state false m D res1.remote = (tr2, .ok res2) ∧
      res2.changed = false := by
  cases hv : validateArgs D state with
  | error e =>
    rw [runRepo_validateErr hv] at h1
    exact absurd (congrArg Prod.snd h1) (by simp)
  | ok st =>
  have hstpres : st = "present" := by
    have h0 := (checkState_ok (validateArgs_ok hv).2.2).1
    rw [hstate] at h0
    exact h0
  subst hstpres
  cases hs : sortRepos D S with
  | error e =>
    rw [runRepo_sortErr hv hs] at h1
    exact absurd (congrArg Prod.snd h1) (by simp)
  | ok quad =>
  obtain ⟨D1, oArgs1, both1, oArt1⟩ := quad
  have hs' : sortLoop D S [] D [] S = .ok (D1, oArgs1, both1, oArt1) := hs
  have hDnodup : (D.map normKey).Nodup := by
    obtain ⟨u, hdup⟩ := (validateArgs_ok hv).2.1
    exact dupCheck_nodup hdup
  have hSkeys : ∀ it ∈ S, (dictGet it "key").isSome := by
    intro it hit
    obtain ⟨s, hsx⟩ := hS it hit
    simp [hsx]
  have hDkeys : ∀ r ∈ D, (dictGet r "key").isSome := by
    intro r hr
    obtain ⟨s, hsx⟩ := hD r hr
    simp [hsx]
  have hoArgs1D : ∀ r ∈ oArgs1, r ∈ D := fun r hr => sortLoop_oArgs_sub hs' r hr
  have hoArgs1nodup : (oArgs1.map normKey).Nodup :=
    hDnodup.sublist ((sortLoop_oArgs_sublist hs').map normKey)
  have hunmatched : ∀ r ∈ oArgs1, ∀ it ∈ S, normKey it ≠ normKey r := by
    intro r hr
    exact sortLoop_oArgs_unmatched hSkeys hs' hDkeys hDnodup hDnodup
      (fun r' hr' => hr') r hr (hoArgs1D r hr)
  have hS1nodup : (((S ++ oArgs1).map normKey)).Nodup := by
    rw [List.map_append, List.nodup_append]
    refine ⟨hSnodup, hoArgs1nodup, ?_⟩
    intro a haS haO
    obtain ⟨it, hit, hita⟩ := List.mem_map.mp haS
    obtain ⟨r, hr, hra⟩ := List.mem_map.mp haO
    exact hunmatched r hr it hit (by rw [hita, hra])
  have hS1str : ∀ e ∈ S ++ oArgs1, ∃ s, dictGet e "key" = some (.str s) := by
    intro e he
    rcases List.mem_append.mp he with he | he
    · exact hS e he
    · exact hD e (hoArgs1D e he)
  have hS1keys : ∀ it ∈ S ++ oArgs1, (dictGet it "key").isSome := by
    intro it hit
    obtain ⟨s, hsx⟩ := hS1str it hit
    simp [hsx]
  -- run 1 evaluation
  have hskip1 : ∀ b ∈ both1, ∃ k c, urlKey b = .ok k ∧
      readOne (S ++ oArgs1) k = some c ∧ dictEqv (dictUpdate c b) c = true := by
    intro b hb
    rcases sortLoop_both_mem hs' b hb with h0 | ⟨⟨it, hit, hkeyeq⟩, e, he, heqv⟩
    · exact absurd h0 (List.not_mem_nil b)
    · obtain ⟨s, hsx⟩ := hS it hit
      have hbk : dictGet b "key" = some (.str s) := by rw [hkeyeq, hsx]
      have hek : dictGet e "key" = some (.str s) := by
        rw [dictEqv_iff.mp heqv "key", hbk]
      have hwfb : WfKeys b :=
        sortLoop_both_wf hs' hWf (fun b' hb' => absurd hb' (List.not_mem_nil b')) b hb
      refine ⟨s, e, urlKey_ok_iff.mpr hbk, ?_, dictUpdate_skip hwfb (dictEqv_symm heqv)⟩
      exact readOne_unique hS1nodup (List.mem_append_left _ he) hek
  obtain ⟨trU1, htrU1, _, _⟩ := updateLoop_skip false m both1 (S ++ oArgs1) hskip1
  have hcreate1 : (if (!oArgs1.isEmpty) = true then createLoop m oArgs1 S
      else ([], .ok S)).2 = .ok (S ++ oArgs1) := by
    split
    · obtain ⟨trC, htrC, _⟩ := createLoop_eval m hm oArgs1 S
        (fun r hr => (hD r (hoArgs1D r hr)).imp fun s hsx => urlKey_ok_iff.mpr hsx)
      rw [htrC]
    · next hne =>
      rcases oArgs1 with _ | ⟨a, as⟩
      · show Except.ok S = Except.ok (S ++ [])
        rw [List.append_nil]
      · exact absurd rfl hne
  have hupdate1 : (if (!both1.isEmpty) = true then updateLoop false m both1 (S ++ oArgs1)
      else ([], .ok (S ++ oArgs1, 0))).2 = .ok (S ++ oArgs1, 0) := by
    split
    · rw [htrU1]
    · rfl
  have hdelete1 : (deleteLoop false m ([] : List Dict) (S ++ oArgs1)).2
      = .ok (S ++ oArgs1) := rfl
  have hres1 := phasedRun_res (if (!oArgs1.isEmpty) = true then oArgs1.length else 0) D1
    hcreate1 hupdate1 hdelete1
  rw [runRepo_eval hv hs, runPhases_eq_phased] at h1
  simp only [show (decide (("present" : String) = "present")
      || decide (("present" : String) = "prune")) = true from by decide,
    show decide (("present" : String) = "absent") = false from by decide,
    show decide (("present" : String) = "prune") = false from by decide,
    decide_True, Bool.or_false, Bool.true_or,
    Bool.true_and, Bool.false_and, Bool.false_eq_true, if_false,
    Bool.not_false, Bool.and_true] at h1
  have hremote1 : res1.remote = S ++ oArgs1 := by
    have h2 := congrArg Prod.snd h1
    rw [hres1] at h2
    exact (congrArg RunResult.remote (Except.ok.inj h2)).symm
  rw [hremote1]
  -- run 2
  have hmatch2 : ∀ r ∈ D, ∃ e ∈ (S ++ oArgs1), normKey e = normKey r ∧
      dictEqv e (dictSet r "key" ((dictGet e "key").getD .null)) = true := by
    intro r hr
    by_cases hex : ∃ it ∈ S, normKey it = normKey r
    · obtain ⟨it0, hit0, hit0norm, hbmem⟩ := sortLoop_matched_char hSkeys hs' hDkeys
        (fun r' _ => countP_le_one_of_nodup hDnodup) r hr hex
      rcases sortLoop_both_mem hs' _ hbmem with h0 | ⟨_, e, heS, heqv⟩
      · exact absurd h0 (List.not_mem_nil _)
      · refine ⟨e, List.mem_append_left _ heS, ?_, ?_⟩
        · rw [normKey_of_eqv heqv, normKey_dictSet_getD, hit0norm]
        · have hkey_e : dictGet e "key" = some ((dictGet it0 "key").getD .null) := by
            rw [dictEqv_iff.mp heqv "key", dictGet_dictSet_self]
          rw [hkey_e]
          simp only [Option.getD_some]
          exact heqv
    · push_neg at hex
      have hrIn : r ∈ oArgs1 := sortLoop_oArgs_retained hs' hr hex
      obtain ⟨s, hsx⟩ := hD r hr
      refine ⟨r, List.mem_append_right _ hrIn, rfl, ?_⟩
      rw [hsx]
      simp only [Option.getD_some]
      rw [dictSet_eq_of_get hsx]
      exact dictEqv_refl r
  obtain ⟨D2, both2, oArt2, hs2⟩ := sortLoop_success hS1keys hS1nodup D [] []
    (S ++ oArgs1) hDkeys hDnodup (fun e he => he) hmatch2
  have hs2' : sortRepos D (S ++ oArgs1) = .ok (D2, [], both2, oArt2) := hs2
  have hskip2 : ∀ b ∈ both2, ∃ k c, urlKey b = .ok k ∧
      readOne (S ++ oArgs1) k = some c ∧ dictEqv (dictUpdate c b) c = true := by
    intro b hb
    rcases sortLoop_both_mem hs2 b hb with h0 | ⟨⟨it, hit, hkeyeq⟩, e, he, heqv⟩
    · exact absurd h0 (List.not_mem_nil b)
    · obtain ⟨s, hsx⟩ := hS1str it hit
      have hbk : dictGet b "key" = some (.str s) := by rw [hkeyeq, hsx]
      have hek : dictGet e "key" = some (.str s) := by
        rw [dictEqv_iff.mp heqv "key", hbk]
      have hwfb : WfKeys b :=
        sortLoop_both_wf hs2 hWf (fun b' hb' => absurd hb' (List.not_mem_nil b')) b hb
      refine ⟨s, e, urlKey_ok_iff.mpr hbk, ?_, dictUpdate_skip hwfb (dictEqv_symm heqv)⟩
      exact readOne_unique hS1nodup he hek
  obtain ⟨trU2, htrU2, _, _⟩ := updateLoop_skip false m both2 (S ++ oArgs1) hskip2
  have hcreate2 : (if (false : Bool) = true then createLoop m [] (S ++ oArgs1)
      else ([], .ok (S ++ oArgs1))).2 = .ok (S ++ oArgs1) := rfl
  have hupdate2 : (if (!both2.isEmpty) = true
      then updateLoop false m both2 (S ++ oArgs1)
      else ([], .ok (S ++ oArgs1, 0))).2 = .ok (S ++ oArgs1, 0) := by
    split
    · rw [htrU2]
    · rfl
  have hdelete2 : (deleteLoop false m ([] : List Dict) (S ++ oArgs1)).2
      = .ok (S ++ oArgs1) := rfl
  have hres2 := phasedRun_res 0 D2 hcreate2 hupdate2 hdelete2
  rw [runRepo_eval hv hs2', runPhases_eq_phased]
  simp only [show (decide (("present" : String) = "present")
      || decide (("present" : String) = "prune")) = true from by decide,
    show decide (("present" : String) = "absent") = false from by decide,
    show decide (("present" : String) = "prune") = false from by decide,
    decide_True, Bool.or_false, Bool.true_or,
    Bool.true_and, Bool.false_and, Bool.false_eq_true, if_false,
    Bool.not_false, Bool.and_true, List.isEmpty_nil, Bool.not_true, Bool.and_false,
    if_true]
  rcases hfull : phasedRun false m false 0 (!both2.isEmpty) [] D2 [] both2 (S ++ oArgs1)
    with ⟨tr2, r2⟩
  rw [hfull] at hres2
  have hr2 : r2 = .ok ⟨D2, S ++ oArgs1,
      !(0 + 0 + (if ([] : List Dict).isEmpty then 0 else ([] : List Dict).length) = 0),
      0, 0, if ([] : List Dict).isEmpty then 0 else ([] : List Dict).length⟩ := hres2
  subst hr2
  exact ⟨tr2, _, rfl, rfl⟩


/-- C8 witness: creating one repository against an empty remote and running
Present again over the resulting remote reports `changed=false` on the second
run. -/
theorem c8_present_idempotent_witness :
    (∀ c, noFail c = false) ∧
    strLower "Present" = "present" ∧
    (∀ r ∈ ([[("key", Value.str "a"), ("rclass", Value.str "local"),
        ("packageType", Value.str "maven")]] : List Dict), WfKeys r) ∧
    (∀ r ∈ ([[("key", Value.str "a"), ("rclass", Value.str "local"),
        ("packageType", Value.str "maven")]] : List Dict),
      ∃ s, dictGet r "key" = some (.str s)) ∧
    (∀ e ∈ ([] : Remote), ∃ s, dictGet e "key" = some (.str s)) ∧
    (([] : Remote).map normKey).Nodup ∧
    runRepo "Present" false noFail
      [[("key", Value.str "a"), ("rclass", Value.str "local"),
        ("packageType", Value.str "maven")]] []
      = ([Call.listAll, Call.put "a" [("key", Value.str "a"), ("rclass", Value.str "local"),
          ("packageType", Value.str "maven")]],
         .ok ⟨[[("key", Value.str "a"), ("rclass", Value.str "local"),
            ("packageType", Value.str "maven")]],
           [[("key", Value.str "a"), ("rclass", Value.str "local"),
            ("packageType", Value.str "maven")]], true, 1, 0, 0⟩) ∧
    ∃ tr2 res2, runRepo "Present" false noFail
        [[("key", Value.str "a"), ("rclass", Value.str "local"),
          ("packageType", Value.str "maven")]]
        (RunResult.remote ⟨[[("key", Value.str "a"), ("rclass", Value.str "local"),
            ("packageType", Value.str "maven")]],
          [[("key", Value.str "a"), ("rclass", Value.str "local"),
            ("packageType", Value.str "maven")]], true, 1, 0, 0⟩)
      = (tr2, .ok res2) ∧ res2.changed = false :=
  ⟨fun _ => rfl, by decide,
   by decide,
   by
     intro r hr
     have := List.mem_singleton.mp hr
     subst this
     exact ⟨"a", rfl⟩,
   fun e he => absurd he (List.not_mem_nil e),
   by decide,
   by decide,
   c8_present_idempotent "Present" noFail (fun _ => rfl) (by decide)
     [[("key", Value.str "a"), ("rclass", Value.str "local"),
       ("packageType", Value.str "maven")]] []
     (by decide)
     (by
       intro r hr
       have := List.mem_singleton.mp hr
       subst this
       exact ⟨"a", rfl⟩)
     (fun e he => absurd he (List.not_mem_nil e))
     (by decide)
     [Call.listAll, Call.put "a" [("key", Value.str "a"), ("rclass", Value.str "local"),
       ("packageType", Value.str "maven")]]
     ⟨[[("key", Value.str "a"), ("rclass", Value.str "local"),
        ("packageType", Value.str "maven")]],
       [[("key", Value.str "a"), ("rclass", Value.str "local"),
        ("packageType", Value.str "maven")]], true, 1, 0, 0⟩
     (by decide)⟩

end JFrog
